import Mathlib

/-!
Verification of the corpus near-duplicate detection engine
(`corpus_dedup_runner.py`): a shallow embedding of its text
normalization, tokenization, 64-bit SimHash, LSH banding, pair
generation, block merging and output-file logic, together with
theorems settling the specification's claims about it.

Strings are modelled as `List Char` (Unicode codepoints).  Python's
`str.lower` is modelled on the ASCII range (`A`-`Z`); all characters
relevant to the word tokenizer's `[a-z0-9]` classes are ASCII, so this
is faithful for the constructs under study.  The 8-byte MD5 prefix used
by SimHash is an external library call (`hashlib`), modelled as an
uninterpreted hash parameter `hash64` shared by every definition.
Floating-point cosine scores are modelled as rationals.
-/

namespace CorpusDedup

/-- ASCII lowercase fold, modelling Python `str.lower` on the ASCII range. -/
def toLowerChar (c : Char) : Char :=
  if 'A' ≤ c ∧ c ≤ 'Z' then Char.ofNat (c.toNat + 32) else c

/-- Python `\s` on the ASCII range: space, tab, LF, CR, FF, VT. -/
def pyIsSpace (c : Char) : Bool :=
  c = ' ' ∨ c = '\t' ∨ c = '\n' ∨ c = '\r' ∨ c = '\x0b' ∨ c = '\x0c'

/-- Membership in the regex class `[a-z0-9]`. -/
def isWordChar (c : Char) : Bool :=
  ('a' ≤ c ∧ c ≤ 'z') ∨ ('0' ≤ c ∧ c ≤ '9')

/-- The four smart-quote replacements of `normalize_sentence`
(U+2018, U+2019 to ASCII single quote; U+201C, U+201D to ASCII double
quote); each replacement is a single-codepoint substitution. -/
def quoteFold (c : Char) : Char :=
  if c = '‘' ∨ c = '’' then '\''
  else if c = '“' ∨ c = '”' then '\"'
  else c

/-- Single left-to-right scan behind `subWS`; `inRun` records whether
the previous character was whitespace (in which case the single
replacement space has already been emitted). -/
def subWSAux : List Char → Bool → List Char
  | [], _ => []
  | c :: rest, inRun =>
    if pyIsSpace c then
      if inRun then subWSAux rest true else ' ' :: subWSAux rest true
    else c :: subWSAux rest false

/-- `re.sub(r"\s+", " ", s)`: replace every maximal whitespace run by a
single ASCII space. -/
def subWS (l : List Char) : List Char :=
  subWSAux l false

/-- Python `str.strip()`: drop leading and trailing whitespace. -/
def stripWS (l : List Char) : List Char :=
  ((l.dropWhile pyIsSpace).reverse.dropWhile pyIsSpace).reverse

/-- `normalize_sentence` from the source: lowercase, fold smart quotes,
collapse whitespace runs to single spaces, strip. -/
def normalize_sentence (s : List Char) : List Char :=
  let s1 := s.map toLowerChar
  let s2 := s1.map quoteFold
  stripWS (subWS s2)

/-- Single scan behind `splitRuns`: `cur` is the current word run,
reversed. -/
def splitRunsAux : List Char → List Char → List (List Char)
  | [], cur => if cur = [] then [] else [cur.reverse]
  | c :: rest, cur =>
    if isWordChar c then splitRunsAux rest (c :: cur)
    else if cur = [] then splitRunsAux rest []
    else cur.reverse :: splitRunsAux rest []

/-- Maximal runs of `[a-z0-9]` characters, in order (regex `findall`). -/
def splitRuns (l : List Char) : List (List Char) :=
  splitRunsAux l []

/-- `tokenize_words` from the source:
`re.findall(r"[a-z0-9]+", s.lower())`. -/
def tokenize_words (s : List Char) : List (List Char) :=
  splitRuns (s.map toLowerChar)

/-- `" ".join(ws)`. -/
def joinSpace (ws : List (List Char)) : List Char :=
  (ws.intersperse [' ']).flatten

/-- SimHash features from the source: whitespace-joined word n-grams of
width `ngram`, or the individual tokens when fewer than `ngram` tokens. -/
def featsOf (toks : List (List Char)) (ngram : Nat) : List (List Char) :=
  if toks.length < ngram then toks
  else (List.range (toks.length - ngram + 1)).map
    (fun i => joinSpace ((toks.drop i).take ngram))

/-- One `Counter` increment: bump the multiplicity of `f`, appending a
fresh entry when `f` is new. -/
def bumpCount (m : List (List Char × Nat)) (f : List Char) :
    List (List Char × Nat) :=
  match m with
  | [] => [(f, 1)]
  | (g, w) :: rest =>
    if g = f then (g, w + 1) :: rest else (g, w) :: bumpCount rest f

/-- `collections.Counter(feats)` as an association list in first-seen
order. -/
def countFeats (fs : List (List Char)) : List (List Char × Nat) :=
  fs.foldl bumpCount []

/-- Accumulator `V[i]` of `simhash_64`: for each distinct feature of
weight `w`, add `w` when bit `i` of its 64-bit hash is set, else
subtract `w`. -/
def vOf (hash64 : List Char → Nat) (counts : List (List Char × Nat))
    (i : Nat) : Int :=
  counts.foldl
    (fun v fw =>
      if (hash64 fw.1 >>> i) % 2 = 1 then v + (fw.2 : Int) else v - (fw.2 : Int))
    0

/-- `simhash_64` from the source, with the 8-byte MD5 prefix abstracted
as `hash64`: tokenize, build n-gram features, count multiplicities,
accumulate the 64 signed tallies, and set output bit `i` exactly when
`V[i] >= 0`. -/
def simhash_64 (hash64 : List Char → Nat) (text : List Char) (ngram : Nat) :
    Nat :=
  let toks := tokenize_words text
  let feats := featsOf toks ngram
  let counts := countFeats feats
  (List.range 64).foldl
    (fun sig i => if 0 ≤ vOf hash64 counts i then sig ||| (1 <<< i) else sig) 0

/-- Popcount on the 64-bit signature domain, modelling Python
`int.bit_count` for values below `2^64` (every signature is). -/
def bitCount (n : Nat) : Nat :=
  ((List.range 64).map (fun i => (n >>> i) % 2)).sum

/-- `hamming` from the source: popcount of the XOR. -/
def hamming (a b : Nat) : Nat :=
  bitCount (a ^^^ b)

/-- `bands_64` from the source: the 8 bucket keys `(i, bits [8i, 8i+8))`
of a 64-bit signature (bands = 8, width = 8 as called by the runner). -/
def bands_64 (sig : Nat) (bands width : Nat) : List (Nat × Nat) :=
  (List.range bands).map (fun i => (i, (sig >>> (i * width)) &&& ((1 <<< width) - 1)))

/-- The central sentence record of the engine (`SentItem` dataclass);
the document path is represented by `docId` (paths are used only for
display names in CSV rows). -/
structure SentItem where
  gid : Nat
  docId : Nat
  sentId : Nat
  raw : List Char
  norm : List Char
  sig : Nat
deriving DecidableEq, Repr

instance : Inhabited SentItem := ⟨⟨0, 0, 0, [], [], 0⟩⟩

/-- The per-document extraction loop of `run` (step 2): walk the split
sentences with their pre-split index `sid`, normalize, drop sentences
with fewer than `minWords` word tokens, sign the survivors and append
them with the running global id.  Returns the items together with the
next free global id. -/
def extractSents (hash64 : List Char → Nat) (docId minWords ngram : Nat) :
    List (List Char) → Nat → Nat → List SentItem × Nat
  | [], _, gid => ([], gid)
  | s :: rest, sid, gid =>
    let norm := normalize_sentence s
    if (tokenize_words norm).length < minWords then
      extractSents hash64 docId minWords ngram rest (sid + 1) gid
    else
      let item : SentItem :=
        ⟨gid, docId, sid, s, norm, simhash_64 hash64 norm ngram⟩
      let (items, gid1) :=
        extractSents hash64 docId minWords ngram rest (sid + 1) (gid + 1)
      (item :: items, gid1)

/-- Extraction over the whole corpus: documents in discovery order get
dense `docId`s, the global id threads across documents. -/
def extractAllAux (hash64 : List Char → Nat) (minWords ngram : Nat) :
    List (List (List Char)) → Nat → Nat → List SentItem
  | [], _, _ => []
  | doc :: rest, docId, gid =>
    let (items, gid1) := extractSents hash64 docId minWords ngram doc 0 gid
    items ++ extractAllAux hash64 minWords ngram rest (docId + 1) gid1

/-- `all_items` of the runner: every kept sentence of every document. -/
def extractAll (hash64 : List Char → Nat) (minWords ngram : Nat)
    (docs : List (List (List Char))) : List SentItem :=
  extractAllAux hash64 minWords ngram docs 0 0

/-- First association-list entry for `key` (`dict` lookup). -/
def assocFind {α β : Type} [DecidableEq α] : List (α × β) → α → Option β
  | [], _ => none
  | (k, v) :: rest, key => if k = key then some v else assocFind rest key

/-- Append `idx` to the association-list entry of `key`, creating the
entry at the end when absent (the `defaultdict(list)` idiom). -/
def addIdx {α : Type} [DecidableEq α] (m : List (α × List Nat)) (key : α)
    (idx : Nat) : List (α × List Nat) :=
  match m with
  | [] => [(key, [idx])]
  | (k, v) :: rest =>
    if k = key then (k, v ++ [idx]) :: rest else (k, v) :: addIdx rest key idx

/-- Stable insertion into a list sorted by the boolean order `le`. -/
def insertLe {α : Type} (le : α → α → Bool) (a : α) : List α → List α
  | [] => [a]
  | b :: rest => if le a b then a :: b :: rest else b :: insertLe le a rest

/-- Stable insertion sort, modelling Python `sorted` (any stable sort
yields the same list). -/
def insSort {α : Type} (le : α → α → Bool) : List α → List α
  | [] => []
  | a :: rest => insertLe le a (insSort le rest)

/-- `by_norm`: indices of `items` grouped by normalized text, keys in
first-appearance order, each group in index order. -/
def byNorm (items : List SentItem) : List (List Char × List Nat) :=
  (List.range items.length).foldl
    (fun m idx => addIdx m ((items.getD idx default).norm) idx) []

/-- Group a list of item indices by their document id. -/
def docGroups (items : List SentItem) (idxs : List Nat) :
    List (Nat × List Nat) :=
  idxs.foldl (fun m i => addIdx m ((items.getD i default).docId) i) []

/-- `itertools.combinations(docs, 2)` for a list: all pairs of entries
at increasing positions. -/
def combos2 : List Nat → List (Nat × Nat)
  | [] => []
  | d :: rest => rest.map (fun d2 => (d, d2)) ++ combos2 rest

/-- Canonical orientation of an index pair, as in the source:
`(ia, ib) if ia < ib else (ib, ia)`. -/
def canonPair (ia ib : Nat) : Nat × Nat :=
  if ia < ib then (ia, ib) else (ib, ia)

/-- The pairs contributed by one `by_norm` group (the body of the
step-3 loop): skip groups of fewer than two members or spanning fewer
than two documents, otherwise take the canonical pairs of the Cartesian
products of the per-document index groups over `combinations(docs, 2)`
of the sorted document ids. -/
def exactGroupPairs (items : List SentItem) (idxs : List Nat) :
    List (Nat × Nat) :=
  if idxs.length < 2 then []
  else if (insSort (fun a b => a ≤ b)
      ((docGroups items idxs).map (·.1))).length < 2 then []
  else
    (combos2 (insSort (fun a b => a ≤ b)
        ((docGroups items idxs).map (·.1)))).flatMap (fun dd =>
      ((assocFind (docGroups items idxs) dd.1).getD []).flatMap (fun ia =>
        ((assocFind (docGroups items idxs) dd.2).getD []).map
          (fun ib => canonPair ia ib)))

/-- `exact_pairs` (step 3 of `run`): for every normalized text shared by
at least two documents, emit the canonical cross-document pairs of the
Cartesian products of the per-document groups.  (The Python set is
modelled as a list; membership is what downstream stages consume.) -/
def exact_pairs (items : List SentItem) : List (Nat × Nat) :=
  (byNorm items).foldl
    (fun acc nidxs => acc ++ exactGroupPairs items nidxs.2) []

/-- LSH bucket construction (step 4): every item index is appended to
the bucket of each of its 8 band keys. -/
def buildBuckets (items : List SentItem) : List ((Nat × Nat) × List Nat) :=
  (List.range items.length).foldl
    (fun m idx =>
      (bands_64 (items.getD idx default).sig 8 8).foldl
        (fun m key => addIdx m key idx) m)
    []

/-- State of the SimHash pair scan: the `seen` set of canonical pairs
and the accumulated `sim_pairs` list `(a, b, hamming)`. -/
abbrev SimState := List (Nat × Nat) × List (Nat × Nat × Nat)

/-- Processing of one unordered candidate `(ia, ib)` from a bucket:
skip same-document pairs, skip pairs already seen, otherwise compute the
Hamming distance and keep the pair when within `moderate`. -/
def processPair (items : List SentItem) (moderate : Nat) (st : SimState)
    (ia ib : Nat) : SimState :=
  if (items.getD ia default).docId = (items.getD ib default).docId then st
  else if canonPair ia ib ∈ st.1 then st
  else if hamming (items.getD (canonPair ia ib).1 default).sig
      (items.getD (canonPair ia ib).2 default).sig ≤ moderate then
    (canonPair ia ib :: st.1,
     st.2 ++ [((canonPair ia ib).1, (canonPair ia ib).2,
       hamming (items.getD (canonPair ia ib).1 default).sig
         (items.getD (canonPair ia ib).2 default).sig)])
  else st

/-- The nested loop over one bucket's member list: all unordered pairs
of positions, outer index first. -/
def processBucket (items : List SentItem) (moderate : Nat) :
    List Nat → SimState → SimState
  | [], st => st
  | ia :: rest, st =>
    processBucket items moderate rest
      (rest.foldl (fun st ib => processPair items moderate st ia ib) st)

/-- `sim_pairs` (step 4): scan every LSH bucket, deduplicating by the
shared `seen` set. -/
def sim_pairs (items : List SentItem) (moderate : Nat) :
    List (Nat × Nat × Nat) :=
  ((buildBuckets items).foldl
    (fun st bucket => processBucket items moderate bucket.2 st)
    ([], [])).2

/-- Sort key order of `write_simhash`:
`(hamming, doc_id of a, doc_id of b)` lexicographically. -/
def simRowLe (items : List SentItem) (x y : Nat × Nat × Nat) : Bool :=
  let ka := (x.2.2, (items.getD x.1 default).docId, (items.getD x.2.1 default).docId)
  let kb := (y.2.2, (items.getD y.1 default).docId, (items.getD y.2.1 default).docId)
  ka.1 < kb.1 ∨ (ka.1 = kb.1 ∧ (ka.2.1 < kb.2.1 ∨ (ka.2.1 = kb.2.1 ∧ ka.2.2 ≤ kb.2.2)))

/-- The pair content of `simhash_sentence_pairs.csv` (moderate stratum):
all kept pairs, sorted by `(hamming, docA, docB)`. -/
def simhash_rows_moderate (items : List SentItem) (moderate : Nat) :
    List (Nat × Nat × Nat) :=
  insSort (simRowLe items) (sim_pairs items moderate)

/-- The pair content of `simhash_sentence_pairs_strict.csv`: the rows of
the sorted scan whose Hamming distance is within `strict`. -/
def simhash_rows_strict (items : List SentItem) (strict moderate : Nat) :
    List (Nat × Nat × Nat) :=
  (simhash_rows_moderate items moderate).filter (fun x => x.2.2 ≤ strict)

/-- The raw embedding candidate scan (step 5): for each item `i`, walk
its top-k neighbor row (skipping the first, self, slot), skip negative
ids and same-document hits, and keep hits with cosine at least
`moderate`.  `I` and `D` are the neighbor-id and score matrices returned
by the external index; scores are modelled as rationals. -/
def embedRaw (items : List SentItem) (I : List (List Int))
    (D : List (List ℚ)) (moderate : ℚ) : List (Nat × Nat × ℚ) :=
  (List.range items.length).foldl
    (fun acc i =>
      acc ++ (((I.getD i []).drop 1).zip ((D.getD i []).drop 1)).foldl
        (fun acc js =>
          if js.1 < 0 then acc
          else if (items.getD i default).docId =
              (items.getD js.1.toNat default).docId then acc
          else if moderate ≤ js.2 then
            acc ++ [((canonPair i js.1.toNat).1, (canonPair i js.1.toNat).2, js.2)]
          else acc)
        [])
    []

/-- One update of the step-5 deduplication dictionary:
`tmp[(a,b)] = max(s, tmp.get((a,b), 0.0))`. -/
def dedupeStep (m : List ((Nat × Nat) × ℚ)) (abs : Nat × Nat × ℚ) :
    List ((Nat × Nat) × ℚ) :=
  match assocFind m (abs.1, abs.2.1) with
  | some s0 =>
    m.map (fun e => if e.1 = (abs.1, abs.2.1) then (e.1, max abs.2.2 s0) else e)
  | none => m ++ [((abs.1, abs.2.1), max abs.2.2 0)]

/-- The deduplication dictionary of step 5: per canonical pair, the
maximum cosine observed, keys in first-appearance order. -/
def dedupeMax (ps : List (Nat × Nat × ℚ)) : List ((Nat × Nat) × ℚ) :=
  ps.foldl dedupeStep []

/-- `embed_pairs` after deduplication: `(a, b, cosine)` triples. -/
def embed_pairs (items : List SentItem) (I : List (List Int))
    (D : List (List ℚ)) (moderate : ℚ) : List (Nat × Nat × ℚ) :=
  (dedupeMax (embedRaw items I D moderate)).map (fun e => (e.1.1, e.1.2, e.2))

/-- A row of `block_matches.csv`. -/
structure Block where
  aStart : Nat
  aEnd : Nat
  bStart : Nat
  bEnd : Nat
  lenSent : Nat
deriving DecidableEq, Repr

/-- The nested `while` loops of the block merger in one pass: the state
`(a0, b0, a1, b1)` is the start and the current tail of the run being
extended; a list element equal to `(a1 + 1, b1 + 1)` extends the run,
anything else closes it (emitting a block when its length reaches
`minRun`) and starts a new run there. -/
def mergeRunsAux (minRun : Nat) : List (Nat × Nat) → Nat → Nat → Nat → Nat →
    List Block
  | [], a0, b0, a1, b1 =>
    if minRun ≤ a1 - a0 + 1 then [⟨a0, a1, b0, b1, a1 - a0 + 1⟩] else []
  | (a, b) :: rest, a0, b0, a1, b1 =>
    if a = a1 + 1 ∧ b = b1 + 1 then mergeRunsAux minRun rest a0 b0 a b
    else
      (if minRun ≤ a1 - a0 + 1 then [⟨a0, a1, b0, b1, a1 - a0 + 1⟩] else []) ++
        mergeRunsAux minRun rest a b a b

/-- The block merger (step 7): walk the sorted pair list, greedily
extend diagonal runs, and emit a block for every run of length at
least `minRun`. -/
def mergeRuns (minRun : Nat) : List (Nat × Nat) → List Block
  | [] => []
  | (a0, b0) :: rest => mergeRunsAux minRun rest a0 b0 a0 b0

/-- Lexicographic order on sentence-id pairs (Python tuple `sorted`). -/
def pairLe (x y : Nat × Nat) : Bool :=
  x.1 < y.1 ∨ (x.1 = y.1 ∧ x.2 ≤ y.2)

/-- Blocks emitted for one document pair: the source sorts the unioned
pair set and runs the greedy merger over it. -/
def blocksOf (minRun : Nat) (pairSet : List (Nat × Nat)) : List Block :=
  mergeRuns minRun (insSort pairLe pairSet)

/-- The parameter record of the runner, with CLI defaults. -/
structure Params where
  min_sentence_words : Nat := 8
  sim_ngram : Nat := 3
  sim_hamming_strict : Nat := 6
  sim_hamming_moderate : Nat := 8
  use_embeddings : Bool := false
  embed_threshold_strict : ℚ := 9 / 10
  embed_threshold_moderate : ℚ := 22 / 25
  topk : Nat := 8
  block_min_run : Nat := 2
deriving Repr

/-- The embedding stage of `run` (step 5) at the control-flow level:
when embeddings are requested and the external embedder is available it
yields the embedding pairs, otherwise the `try`/`except` leaves the
pair list empty; the boolean records whether the warning branch
(`[WARN] Embeddings skipped`) ran. -/
def embedStage (items : List SentItem) (I : List (List Int))
    (D : List (List ℚ)) (p : Params) (embedderAvailable : Bool) :
    List (Nat × Nat × ℚ) × Bool :=
  if p.use_embeddings then
    if embedderAvailable then (embed_pairs items I D p.embed_threshold_moderate, false)
    else ([], true)
  else ([], false)

/-- Header columns of the embedding CSVs, as written by
`write_embeddings` in the empty case. -/
def embedHeader : List (List Char) :=
  [['d','o','c','A'], ['s','e','n','t','A','_','i','d'], ['t','e','x','t','A'],
   ['d','o','c','B'], ['s','e','n','t','B','_','i','d'], ['t','e','x','t','B'],
   ['c','o','s','i','n','e']]

/-- File name of the moderate embedding CSV. -/
def embedModName : List Char :=
  ['e','m','b','e','d','_','s','e','n','t','e','n','c','e','_','p','a','i','r','s','.','c','s','v']

/-- File name of the strict embedding CSV. -/
def embedStrictName : List Char :=
  ['e','m','b','e','d','_','s','e','n','t','e','n','c','e','_','p','a','i','r','s','_','s','t','r','i','c','t','.','c','s','v']

/-- The files written by `write_embeddings`, as
`(name, columns, rowCount)`: with no embedding pairs only the moderate
CSV is written, as a header-only empty table; otherwise the strict CSV
is written first, then the moderate one. -/
def write_embeddings_files (epairs : List (Nat × Nat × ℚ)) (strict : ℚ) :
    List (List Char × List (List Char) × Nat) :=
  if epairs.isEmpty then
    [(embedModName, embedHeader, 0)]
  else
    [(embedStrictName, embedHeader,
        (epairs.filter (fun x => strict ≤ x.2.2)).length),
     (embedModName, embedHeader, epairs.length)]

/-- File name constants of the runner's other outputs. -/
def summaryName : List Char :=
  ['s','u','m','m','a','r','y','.','j','s','o','n']

def exactName : List Char :=
  ['e','x','a','c','t','_','s','e','n','t','e','n','c','e','_','p','a','i','r','s','.','c','s','v']

def simStrictName : List Char :=
  ['s','i','m','h','a','s','h','_','s','e','n','t','e','n','c','e','_','p','a','i','r','s','_','s','t','r','i','c','t','.','c','s','v']

def simModName : List Char :=
  ['s','i','m','h','a','s','h','_','s','e','n','t','e','n','c','e','_','p','a','i','r','s','.','c','s','v']

def blockName : List Char :=
  ['b','l','o','c','k','_','m','a','t','c','h','e','s','.','c','s','v']

def metricsName : List Char :=
  ['d','o','c','_','m','e','t','r','i','c','s','.','c','s','v']

/-- The names of the files `run` writes, in write order: on an empty
corpus the function returns before writing anything; otherwise the
exact CSV, the two SimHash CSVs, the embedding CSV(s), the block CSV,
the metrics CSV and the summary. -/
def runFiles (hash64 : List Char → Nat) (docs : List (List (List Char)))
    (I : List (List Int)) (D : List (List ℚ)) (p : Params)
    (embedderAvailable : Bool) : List (List Char) :=
  if docs.isEmpty then []
  else
    let items := extractAll hash64 p.min_sentence_words p.sim_ngram docs
    let es := embedStage items I D p embedderAvailable
    [exactName, simStrictName, simModName] ++
      (write_embeddings_files es.1 p.embed_threshold_strict).map (·.1) ++
      [blockName, metricsName, summaryName]

/-! ### Spec-side reference definitions

These definitions follow the specification's words (sections 4.1 and
4.3) and exist only to be compared with the source-derived definitions
above. -/

/-- Spec step (1): fold to lowercase. -/
def refLower (s : List Char) : List Char :=
  s.map toLowerChar

/-- Spec step (2): replace the four smart-quote codepoints. -/
def refQuotes (s : List Char) : List Char :=
  s.map quoteFold

/-- Spec step (3): collapse every whitespace run to a single ASCII
space and trim leading/trailing whitespace. -/
def refCollapseTrim (s : List Char) : List Char :=
  stripWS (subWS s)

/-- The reference normalizer: the three spec steps composed in order. -/
def normalizeRef (s : List Char) : List Char :=
  refCollapseTrim (refQuotes (refLower s))

/-- Spec-side accumulator: `V[i]` as the plain sum over the feature
list with multiplicity of `+1`/`-1` per feature occurrence (equivalent
to the spec's sum over distinct features weighted by multiplicity). -/
def vRef (hash64 : List Char → Nat) (feats : List (List Char)) (i : Nat) :
    Int :=
  (feats.map (fun f => if (hash64 f >>> i) % 2 = 1 then (1 : Int) else -1)).sum

/-- The reference SimHash-64 of the spec: word-token n-gram features
(individual tokens when too few tokens), per-bit signed tallies over
the feature multiset, output bit `i` set exactly when the tally is
nonnegative. -/
def simhashRef (hash64 : List Char → Nat) (text : List Char) (ngram : Nat) :
    Nat :=
  let toks := tokenize_words text
  let feats := if toks.length < ngram then toks
    else (List.range (toks.length - ngram + 1)).map
      (fun i => joinSpace ((toks.drop i).take ngram))
  (List.range 64).foldl
    (fun sig i => if 0 ≤ vRef hash64 feats i then sig ||| (1 <<< i) else sig) 0

/-! ### Block-merge input construction and metrics -/

/-- `add_edge` (step 7): orient a matched index pair by document order
and record the `(sent_id, sent_id)` pair in the per-document-pair set
(modelled as a duplicate-free list in insertion order). -/
def addEdge (items : List SentItem)
    (m : List ((Nat × Nat) × List (Nat × Nat))) (a b : Nat) :
    List ((Nat × Nat) × List (Nat × Nat)) :=
  let A := items.getD a default
  let B := items.getD b default
  if A.docId = B.docId then m
  else
    let key := if B.docId < A.docId then (B.docId, A.docId) else (A.docId, B.docId)
    let sp := if B.docId < A.docId then (B.sentId, A.sentId) else (A.sentId, B.sentId)
    match assocFind m key with
    | some l =>
      if sp ∈ l then m
      else m.map (fun e => if e.1 = key then (e.1, e.2 ++ [sp]) else e)
    | none => m ++ [(key, [sp])]

/-- The unioned per-document-pair edge sets fed to the block merger:
exact pairs, then SimHash pairs, then embedding pairs. -/
def edgesOf (items : List SentItem) (exactP : List (Nat × Nat))
    (simP : List (Nat × Nat × Nat)) (embedP : List (Nat × Nat × ℚ))
    (moderate : Nat) : List ((Nat × Nat) × List (Nat × Nat)) :=
  let m1 := exactP.foldl (fun m ab => addEdge items m ab.1 ab.2) []
  let m2 := simP.foldl
    (fun m abh => if abh.2.2 ≤ moderate then addEdge items m abh.1 abh.2.1 else m) m1
  embedP.foldl (fun m abs => addEdge items m abs.1 abs.2.1) m2

/-- The rows of `block_matches.csv`, tagged with their document pair. -/
def block_rows (items : List SentItem) (exactP : List (Nat × Nat))
    (simP : List (Nat × Nat × Nat)) (embedP : List (Nat × Nat × ℚ))
    (moderate minRun : Nat) : List ((Nat × Nat) × Block) :=
  (edgesOf items exactP simP embedP moderate).flatMap
    (fun e => (blocksOf minRun e.2).map (fun blk => (e.1, blk)))

/-- `mark_pair` bookkeeping of step 8: the `(doc_id, sent_id)` marks
contributed by a pair list. -/
def marksOf (items : List SentItem) (ps : List (Nat × Nat)) :
    List (Nat × Nat) :=
  ps.flatMap (fun ab =>
    [((items.getD ab.1 default).docId, (items.getD ab.1 default).sentId),
     ((items.getD ab.2 default).docId, (items.getD ab.2 default).sentId)])

/-- The `(doc_id, sent_id)` marks covered by the emitted blocks. -/
def blockMarks (rows : List ((Nat × Nat) × Block)) : List (Nat × Nat) :=
  rows.flatMap (fun r =>
    ((List.range (r.2.aEnd + 1 - r.2.aStart)).map (fun k => (r.1.1, r.2.aStart + k))) ++
    ((List.range (r.2.bEnd + 1 - r.2.bStart)).map (fun k => (r.1.2, r.2.bStart + k))))

/-- The integer fields of one `doc_metrics.csv` row:
`(total_sentences, matched_sentences_any, in_block_sentences)`.  The
two percentage columns are float arithmetic and are not modelled. -/
def metricsRow (items : List SentItem) (allMarks blkMarks : List (Nat × Nat))
    (docId : Nat) : Nat × Nat × Nat :=
  ((items.filter (fun it => it.docId = docId)).length,
   (((allMarks.filter (fun m => m.1 = docId)).map (·.2)).dedup).length,
   (((blkMarks.filter (fun m => m.1 = docId)).map (·.2)).dedup).length)

/-- Sort order of the sorted exact-pair output (`sorted(exact_pairs)`). -/
def exact_rows (items : List SentItem) : List (Nat × Nat) :=
  insSort pairLe (exact_pairs items)

/-- Sort key of `write_embeddings`: `(-cosine, docA, docB)`; descending
cosine, ascending document ids. -/
def embedRowLe (items : List SentItem) (x y : Nat × Nat × ℚ) : Bool :=
  x.2.2 > y.2.2 ∨ (x.2.2 = y.2.2 ∧
    ((items.getD x.1 default).docId < (items.getD y.1 default).docId ∨
     ((items.getD x.1 default).docId = (items.getD y.1 default).docId ∧
      (items.getD x.2.1 default).docId ≤ (items.getD y.2.1 default).docId)))

/-- The rows of `embed_sentence_pairs.csv` (moderate stratum). -/
def embed_rows_moderate (items : List SentItem)
    (epairs : List (Nat × Nat × ℚ)) (moderate : ℚ) : List (Nat × Nat × ℚ) :=
  (insSort (embedRowLe items) epairs).filter (fun x => moderate ≤ x.2.2)

/-- The rows of `embed_sentence_pairs_strict.csv`. -/
def embed_rows_strict (items : List SentItem)
    (epairs : List (Nat × Nat × ℚ)) (strict : ℚ) : List (Nat × Nat × ℚ) :=
  (insSort (embedRowLe items) epairs).filter (fun x => strict ≤ x.2.2)

/-- The complete observable output of one run, as a single tuple:
written file names, exact rows, SimHash strict and moderate rows,
embedding strict and moderate rows, block rows, per-document metric
fields, and the summary counts
`(n_documents, n_sentences_kept, exact, sim_strict, sim_moderate,
embed_strict, embed_moderate, blocks)`. -/
def runAll (hash64 : List Char → Nat) (docs : List (List (List Char)))
    (I : List (List Int)) (D : List (List ℚ)) (p : Params)
    (embedderAvailable : Bool) :
    List (List Char) × List (Nat × Nat) × List (Nat × Nat × Nat) ×
      List (Nat × Nat × Nat) × List (Nat × Nat × ℚ) × List (Nat × Nat × ℚ) ×
      List ((Nat × Nat) × Block) × List (Nat × Nat × Nat) ×
      (Nat × Nat × Nat × Nat × Nat × Nat × Nat × Nat) :=
  let items := extractAll hash64 p.min_sentence_words p.sim_ngram docs
  let exactP := exact_pairs items
  let simP := sim_pairs items p.sim_hamming_moderate
  let es := embedStage items I D p embedderAvailable
  let blkRows := block_rows items exactP simP es.1 p.sim_hamming_moderate p.block_min_run
  let allMarks := marksOf items (exactP ++ simP.map (fun x => (x.1, x.2.1)) ++
    es.1.map (fun x => (x.1, x.2.1)))
  let strictRows := simhash_rows_strict items p.sim_hamming_strict p.sim_hamming_moderate
  let modRows := simhash_rows_moderate items p.sim_hamming_moderate
  let embStrict := embed_rows_strict items es.1 p.embed_threshold_strict
  let embMod := embed_rows_moderate items es.1 p.embed_threshold_moderate
  (runFiles hash64 docs I D p embedderAvailable,
   exact_rows items, strictRows, modRows, embStrict, embMod, blkRows,
   (List.range docs.length).map (metricsRow items allMarks (blockMarks blkRows)),
   (docs.length, items.length, exactP.length, strictRows.length, modRows.length,
    embStrict.length, embMod.length, blkRows.length))

/-- The entry list for key `k` of an association map (empty when
absent); proof-side view of the bucket and group maps. -/
def bucketGet {α : Type} [DecidableEq α] (m : List (α × List Nat)) (k : α) :
    List Nat :=
  (assocFind m k).getD []

/-- Well-formedness of one recorded SimHash pair: canonically ordered
in-bounds indices of items from distinct documents, carrying their
exact Hamming distance, within the moderate threshold. -/
def SimPairOk (items : List SentItem) (moderate : Nat)
    (abh : Nat × Nat × Nat) : Prop :=
  abh.1 < abh.2.1 ∧ abh.1 < items.length ∧ abh.2.1 < items.length ∧
  (items.getD abh.1 default).docId ≠ (items.getD abh.2.1 default).docId ∧
  abh.2.2 = hamming (items.getD abh.1 default).sig (items.getD abh.2.1 default).sig ∧
  abh.2.2 ≤ moderate

/-- Invariant of the SimHash scan state: every seen pair has its row in
the output, and every output row is well-formed. -/
def SimInv (items : List SentItem) (moderate : Nat) (st : SimState) : Prop :=
  (∀ ab ∈ st.1, (ab.1, ab.2,
    hamming (items.getD ab.1 default).sig (items.getD ab.2 default).sig) ∈ st.2) ∧
  ∀ abh ∈ st.2, SimPairOk items moderate abh

/-! ## Lemmas about the normalizer -/

theorem filter_dropWhile_space (l : List Char) :
    (l.dropWhile pyIsSpace).filter (fun c => !(pyIsSpace c)) =
      l.filter (fun c => !(pyIsSpace c)) := by
  conv_rhs => rw [← List.takeWhile_append_dropWhile (p := pyIsSpace) (l := l)]
  rw [List.filter_append]
  have h : (l.takeWhile pyIsSpace).filter (fun c => !(pyIsSpace c)) = [] := by
    rw [List.filter_eq_nil_iff]
    intro a ha
    simp [List.mem_takeWhile_imp ha]
  rw [h, List.nil_append]

theorem filter_subWSAux (l : List Char) :
    ∀ inRun, (subWSAux l inRun).filter (fun c => !(pyIsSpace c)) =
      l.filter (fun c => !(pyIsSpace c)) := by
  induction l with
  | nil => intro inRun; rfl
  | cons c rest ih =>
    intro inRun
    by_cases h : pyIsSpace c
    · have h2 : (c :: rest).filter (fun c => !(pyIsSpace c)) =
          rest.filter (fun c => !(pyIsSpace c)) := by
        rw [List.filter_cons]
        simp [h]
      rw [show subWSAux (c :: rest) inRun =
          if inRun then subWSAux rest true else ' ' :: subWSAux rest true from by
            rw [subWSAux, if_pos h], h2]
      by_cases hr : inRun
      · rw [if_pos hr, ih]
      · rw [if_neg hr, List.filter_cons]
        simp only [show pyIsSpace ' ' = true from by decide, Bool.not_true,
          Bool.false_eq_true, if_false]
        exact ih true
    · rw [show subWSAux (c :: rest) inRun = c :: subWSAux rest false from by
        rw [subWSAux, if_neg h]]
      rw [List.filter_cons, List.filter_cons, ih false]

theorem filter_subWS (l : List Char) :
    (subWS l).filter (fun c => !(pyIsSpace c)) =
      l.filter (fun c => !(pyIsSpace c)) :=
  filter_subWSAux l false

theorem filter_stripWS (l : List Char) :
    (stripWS l).filter (fun c => !(pyIsSpace c)) =
      l.filter (fun c => !(pyIsSpace c)) := by
  unfold stripWS
  rw [List.filter_reverse, filter_dropWhile_space, List.filter_reverse,
    List.reverse_reverse, filter_dropWhile_space]

/-- Claim C8: the normalizer is exactly the reference composition: fold to
lowercase, fold the four smart quotes, collapse whitespace runs and
trim — applied in that order; and it removes no non-whitespace
character (in particular punctuation is preserved). -/
theorem claim8_normalizer_is_reference_composition (s : List Char) :
    normalize_sentence s = refCollapseTrim (refQuotes (refLower s)) ∧
      (normalize_sentence s).filter (fun c => !(pyIsSpace c)) =
        ((s.map toLowerChar).map quoteFold).filter (fun c => !(pyIsSpace c)) := by
  constructor
  · rfl
  · show (stripWS (subWS _)).filter _ = _
    rw [filter_stripWS, filter_subWS]

/-! ## Lemmas about SimHash on token-free input -/

theorem splitRuns_eq_nil (l : List Char)
    (h : ∀ c ∈ l, isWordChar c = false) : splitRuns l = [] := by
  unfold splitRuns
  induction l with
  | nil => rfl
  | cons c rest ih =>
    have hc : isWordChar c = false := h c (List.mem_cons_self c rest)
    rw [splitRunsAux, if_neg (by simp [hc]), if_pos rfl]
    exact ih (fun c hc => h c (List.mem_cons_of_mem _ hc))

theorem bitCount_zero : bitCount 0 = 0 := by
  decide

/-- Claim C10: a string with no `[a-z0-9]` character (after lowercasing)
has no word tokens and hence no features, every accumulator stays `0`,
and the `>= 0` tie-break sets all 64 bits: the signature is
`2^64 - 1`; two such strings are therefore at Hamming distance 0. -/
theorem claim10_tokenless_signature_all_ones (hash64 : List Char → Nat)
    (s t : List Char) (ngram : Nat) (hn : 0 < ngram)
    (hs : ∀ c ∈ s, isWordChar (toLowerChar c) = false)
    (ht : ∀ c ∈ t, isWordChar (toLowerChar c) = false) :
    simhash_64 hash64 s ngram = 2 ^ 64 - 1 ∧
      hamming (simhash_64 hash64 s ngram) (simhash_64 hash64 t ngram) = 0 := by
  have key : ∀ u : List Char, (∀ c ∈ u, isWordChar (toLowerChar c) = false) →
      simhash_64 hash64 u ngram = 2 ^ 64 - 1 := by
    intro u hu
    have htok : tokenize_words u = [] := by
      apply splitRuns_eq_nil
      intro c hc
      obtain ⟨c0, hc0, rfl⟩ := List.mem_map.mp hc
      exact hu c0 hc0
    have hdef : simhash_64 hash64 u ngram = (List.range 64).foldl
        (fun sig i =>
          if 0 ≤ vOf hash64 (countFeats (featsOf (tokenize_words u) ngram)) i then
            sig ||| (1 <<< i)
          else sig) 0 := rfl
    rw [hdef, htok]
    have hfeats : featsOf [] ngram = [] := by
      unfold featsOf
      rw [if_pos (by simpa using hn)]
    rw [hfeats]
    have hv : ∀ i, vOf hash64 (countFeats []) i = 0 := fun i => rfl
    simp only [hv]
    decide
  refine ⟨key s hs, ?_⟩
  rw [key s hs, key t ht]
  unfold hamming
  rw [Nat.xor_self]
  exact bitCount_zero

/-- Witness for C10 at two concrete token-free strings. -/
theorem claim10_witness :
    simhash_64 (fun f => f.length) ['?','!'] 3 = 2 ^ 64 - 1 ∧
      hamming (simhash_64 (fun f => f.length) ['?','!'] 3)
        (simhash_64 (fun f => f.length) [' ']  3) = 0 :=
  claim10_tokenless_signature_all_ones (fun f => f.length) ['?','!'] [' '] 3
    (by decide) (by decide) (by decide)

/-! ## Lemmas for the SimHash reference equivalence -/

theorem foldl_add_int {α : Type} (t : α → Int) (l : List α) (v0 : Int) :
    l.foldl (fun v x => v + t x) v0 = v0 + (l.map t).sum := by
  induction l generalizing v0 with
  | nil => simp
  | cons a l ih =>
    simp only [List.foldl_cons, List.map_cons, List.sum_cons, ih]
    ring

theorem bumpCount_sum (g : List Char → Int) (m : List (List Char × Nat))
    (f : List Char) :
    ((bumpCount m f).map (fun fw => (fw.2 : Int) * g fw.1)).sum =
      (m.map (fun fw => (fw.2 : Int) * g fw.1)).sum + g f := by
  induction m with
  | nil => simp [bumpCount]
  | cons e rest ih =>
    obtain ⟨k, w⟩ := e
    by_cases h : k = f
    · subst h
      rw [show bumpCount ((k, w) :: rest) k = (k, w + 1) :: rest from by
        simp [bumpCount]]
      rw [List.map_cons, List.sum_cons, List.map_cons, List.sum_cons]
      push_cast
      ring
    · simp only [bumpCount, if_neg h, List.map_cons, List.sum_cons, ih]
      ring

theorem countFeats_sum (g : List Char → Int) (fs : List (List Char)) :
    ∀ m : List (List Char × Nat),
      ((fs.foldl bumpCount m).map (fun fw => (fw.2 : Int) * g fw.1)).sum =
        (m.map (fun fw => (fw.2 : Int) * g fw.1)).sum + (fs.map g).sum := by
  induction fs with
  | nil => simp
  | cons f fs ih =>
    intro m
    simp only [List.foldl_cons, List.map_cons, List.sum_cons]
    rw [ih (bumpCount m f), bumpCount_sum]
    ring

theorem vOf_eq_vRef (hash64 : List Char → Nat) (fs : List (List Char))
    (i : Nat) : vOf hash64 (countFeats fs) i = vRef hash64 fs i := by
  unfold vOf vRef countFeats
  have hfun : (fun (v : Int) (fw : List Char × Nat) =>
      if (hash64 fw.1 >>> i) % 2 = 1 then v + (fw.2 : Int) else v - (fw.2 : Int)) =
      (fun v fw => v +
        (fw.2 : Int) * (if (hash64 fw.1 >>> i) % 2 = 1 then (1 : Int) else -1)) := by
    funext v fw
    by_cases h : (hash64 fw.1 >>> i) % 2 = 1
    · simp [h]
    · simp [h, sub_eq_add_neg]
  rw [hfun, foldl_add_int]
  have h2 := countFeats_sum
    (fun f => if (hash64 f >>> i) % 2 = 1 then (1 : Int) else -1) fs []
  simpa using h2

theorem foldl_orBits_testBit (P : Nat → Prop) [DecidablePred P] (n j : Nat) :
    ((List.range n).foldl (fun sig i => if P i then sig ||| (1 <<< i) else sig) 0).testBit j
      = (decide (j < n) && decide (P j)) := by
  induction n with
  | zero => simp
  | succ n ih =>
    rw [List.range_succ, List.foldl_append, List.foldl_cons, List.foldl_nil]
    by_cases hP : P n
    · rw [if_pos hP, Nat.testBit_or, ih, Nat.one_shiftLeft, Nat.testBit_two_pow]
      by_cases hj : j < n
      · simp [hj, Nat.lt_succ_of_lt hj, show n ≠ j by omega]
      · by_cases hj2 : j = n
        · subst hj2
          simp [hP, Nat.lt_irrefl, Nat.lt_succ_self]
        · simp [hj, show ¬ j < n + 1 by omega, show n ≠ j by omega]
    · rw [if_neg hP, ih]
      by_cases hj2 : j = n
      · subst hj2
        simp [hP]
      · by_cases hj : j < n
        · simp [hj, show j < n + 1 by omega]
        · simp [hj, show ¬ j < n + 1 by omega]

/-- Claim C2: `simhash_64` agrees with the reference SimHash-64 of the
spec (per-bit signed tallies over the feature multiset rather than the
`Counter`), and bit `i` of the signature is set exactly when the
reference tally `V[i]` is nonnegative.  The 8-byte big-endian MD5
prefix is the shared uninterpreted hash `hash64`. -/
theorem claim2_simhash_matches_reference (hash64 : List Char → Nat)
    (text : List Char) (ngram : Nat) :
    simhash_64 hash64 text ngram = simhashRef hash64 text ngram ∧
      ∀ i, i < 64 →
        ((simhash_64 hash64 text ngram).testBit i ↔
          0 ≤ vRef hash64 (featsOf (tokenize_words text) ngram) i) := by
  have hdef1 : simhash_64 hash64 text ngram = (List.range 64).foldl
      (fun sig i =>
        if 0 ≤ vOf hash64 (countFeats (featsOf (tokenize_words text) ngram)) i
        then sig ||| (1 <<< i) else sig) 0 := rfl
  have hdef2 : simhashRef hash64 text ngram = (List.range 64).foldl
      (fun sig i =>
        if 0 ≤ vRef hash64 (featsOf (tokenize_words text) ngram) i
        then sig ||| (1 <<< i) else sig) 0 := rfl
  constructor
  · rw [hdef1, hdef2]
    simp only [vOf_eq_vRef]
  · intro i hi
    rw [hdef1]
    simp only [vOf_eq_vRef]
    rw [foldl_orBits_testBit
      (fun i => 0 ≤ vRef hash64 (featsOf (tokenize_words text) ngram) i) 64 i]
    simp [hi]

/-- Witness for C2 at a concrete sentence and bit. -/
theorem claim2_witness :
    (simhash_64 (fun f => f.length) (['a','b',' ','c','d']) 3 =
      simhashRef (fun f => f.length) (['a','b',' ','c','d']) 3) ∧
      ((simhash_64 (fun f => f.length) (['a','b',' ','c','d']) 3).testBit 5 ↔
        0 ≤ vRef (fun f => f.length)
          (featsOf (tokenize_words (['a','b',' ','c','d'])) 3) 5) :=
  ⟨(claim2_simhash_matches_reference (fun f => f.length) (['a','b',' ','c','d']) 3).1,
   (claim2_simhash_matches_reference (fun f => f.length) (['a','b',' ','c','d']) 3).2
     5 (by decide)⟩

/-! ## Lemmas about sorting and the block merger -/

theorem insertLe_perm {α : Type} (le : α → α → Bool) (a : α) (l : List α) :
    (insertLe le a l).Perm (a :: l) := by
  induction l with
  | nil => exact List.Perm.refl _
  | cons b rest ih =>
    unfold insertLe
    by_cases h : le a b
    · rw [if_pos h]
    · rw [if_neg h]
      exact (ih.cons b).trans (List.Perm.swap a b rest)

theorem insSort_perm {α : Type} (le : α → α → Bool) (l : List α) :
    (insSort le l).Perm l := by
  induction l with
  | nil => exact List.Perm.refl _
  | cons a rest ih =>
    exact (insertLe_perm le a (insSort le rest)).trans (ih.cons a)

theorem mem_insSort {α : Type} (le : α → α → Bool) (l : List α) (x : α) :
    x ∈ insSort le l ↔ x ∈ l :=
  (insSort_perm le l).mem_iff

theorem mergeRunsAux_spec (minRun : Nat) (L : List (Nat × Nat)) :
    ∀ (l : List (Nat × Nat)) (a0 b0 d : Nat),
      (∀ x ∈ l, x ∈ L) → (∀ k ≤ d, (a0 + k, b0 + k) ∈ L) →
      ∀ blk ∈ mergeRunsAux minRun l a0 b0 (a0 + d) (b0 + d),
        blk.aEnd = blk.aStart + (blk.lenSent - 1) ∧
        blk.bEnd = blk.bStart + (blk.lenSent - 1) ∧
        1 ≤ blk.lenSent ∧ minRun ≤ blk.lenSent ∧
        ∀ k < blk.lenSent, (blk.aStart + k, blk.bStart + k) ∈ L := by
  intro l
  induction l with
  | nil =>
    intro a0 b0 d hsub hrun blk hblk
    rw [mergeRunsAux] at hblk
    by_cases hc : minRun ≤ a0 + d - a0 + 1
    · rw [if_pos hc] at hblk
      have hb := List.mem_singleton.mp hblk
      subst hb
      refine ⟨?_, ?_, ?_, hc, ?_⟩
      · show a0 + d = a0 + (a0 + d - a0 + 1 - 1)
        omega
      · show b0 + d = b0 + (a0 + d - a0 + 1 - 1)
        omega
      · show 1 ≤ a0 + d - a0 + 1
        omega
      · intro k hk
        have hk' : k < a0 + d - a0 + 1 := hk
        exact hrun k (by omega)
    · rw [if_neg hc] at hblk
      simp at hblk
  | cons hd rest ih =>
    intro a0 b0 d hsub hrun blk hblk
    obtain ⟨a, b⟩ := hd
    rw [mergeRunsAux] at hblk
    by_cases h : a = a0 + d + 1 ∧ b = b0 + d + 1
    · rw [if_pos h] at hblk
      obtain ⟨ha, hb⟩ := h
      have hblk' : blk ∈ mergeRunsAux minRun rest a0 b0 (a0 + (d + 1)) (b0 + (d + 1)) := by
        rw [show a0 + (d + 1) = a from by omega, show b0 + (d + 1) = b from by omega]
        exact hblk
      refine ih a0 b0 (d + 1) (fun x hx => hsub x (List.mem_cons_of_mem _ hx))
        ?_ blk hblk'
      intro k hk
      by_cases hk1 : k ≤ d
      · exact hrun k hk1
      · have hkd : k = d + 1 := by omega
        subst hkd
        have hab : (a0 + (d + 1), b0 + (d + 1)) = (a, b) := by
          simp only [Prod.mk.injEq]
          omega
        rw [hab]
        exact hsub (a, b) (List.mem_cons_self _ _)
    · rw [if_neg h] at hblk
      rcases List.mem_append.mp hblk with hl | hr
      · by_cases hc : minRun ≤ a0 + d - a0 + 1
        · rw [if_pos hc] at hl
          have hb := List.mem_singleton.mp hl
          subst hb
          refine ⟨?_, ?_, ?_, hc, ?_⟩
          · show a0 + d = a0 + (a0 + d - a0 + 1 - 1)
            omega
          · show b0 + d = b0 + (a0 + d - a0 + 1 - 1)
            omega
          · show 1 ≤ a0 + d - a0 + 1
            omega
          · intro k hk
            have hk' : k < a0 + d - a0 + 1 := hk
            exact hrun k (by omega)
        · rw [if_neg hc] at hl
          simp at hl
      · refine ih a b 0 (fun x hx => hsub x (List.mem_cons_of_mem _ hx))
          ?_ blk hr
        intro k hk
        have hk0 : k = 0 := Nat.le_zero.mp hk
        subst hk0
        exact hsub (a, b) (List.mem_cons_self _ _)

theorem mergeRuns_spec (minRun : Nat) (l : List (Nat × Nat)) :
    ∀ blk ∈ mergeRuns minRun l,
      blk.aEnd = blk.aStart + (blk.lenSent - 1) ∧
      blk.bEnd = blk.bStart + (blk.lenSent - 1) ∧
      1 ≤ blk.lenSent ∧ minRun ≤ blk.lenSent ∧
      ∀ k < blk.lenSent, (blk.aStart + k, blk.bStart + k) ∈ l := by
  match l with
  | [] =>
    intro blk hblk
    simp [mergeRuns] at hblk
  | (a0, b0) :: rest =>
    intro blk hblk
    rw [mergeRuns] at hblk
    exact mergeRunsAux_spec minRun ((a0, b0) :: rest) rest a0 b0 0
      (fun x hx => List.mem_cons_of_mem _ hx)
      (fun k hk => by
        have hk0 : k = 0 := Nat.le_zero.mp hk
        subst hk0
        exact List.mem_cons_self _ _)
      blk hblk

/-- Claim C4: every block emitted by the block merger over a document
pair's unioned pair set is a diagonal run: both sides span
`len - 1`, the run length is at least `block_min_run`, and every
aligned pair `(A_start + k, B_start + k)` for `k < len` is present in
the unioned pair set. -/
theorem claim4_blocks_are_aligned_runs (minRun : Nat)
    (pairSet : List (Nat × Nat)) (blk : Block)
    (hblk : blk ∈ blocksOf minRun pairSet) :
    blk.aEnd - blk.aStart = blk.lenSent - 1 ∧
      blk.bEnd - blk.bStart = blk.lenSent - 1 ∧
      blk.aStart ≤ blk.aEnd ∧ blk.bStart ≤ blk.bEnd ∧
      minRun ≤ blk.lenSent ∧
      ∀ k < blk.lenSent, (blk.aStart + k, blk.bStart + k) ∈ pairSet := by
  have h := mergeRuns_spec minRun (insSort pairLe pairSet) blk hblk
  refine ⟨by omega, by omega, by omega, by omega, h.2.2.2.1, ?_⟩
  intro k hk
  exact (mem_insSort pairLe pairSet _).mp (h.2.2.2.2 k hk)

/-- Witness for C4: a three-pair diagonal plus an outlier produces the
single expected block, checked through the theorem. -/
theorem claim4_witness :
    (⟨4, 6, 10, 12, 3⟩ : Block) ∈ blocksOf 2 [(9, 3), (5, 11), (4, 10), (6, 12)] ∧
      (4 + 1, 10 + 1) ∈ [(9, 3), (5, 11), (4, 10), (6, 12)] := by
  refine ⟨by decide, ?_⟩
  exact (claim4_blocks_are_aligned_runs 2 [(9, 3), (5, 11), (4, 10), (6, 12)]
    ⟨4, 6, 10, 12, 3⟩ (by decide)).2.2.2.2.2 1 (by decide)

/-! ## Extraction: sentence numbering (C1) -/

theorem extractSents_cons_drop (hash64 : List Char → Nat)
    (docId minWords ngram : Nat) (s : List Char) (rest : List (List Char))
    (sid gid : Nat)
    (h : (tokenize_words (normalize_sentence s)).length < minWords) :
    extractSents hash64 docId minWords ngram (s :: rest) sid gid =
      extractSents hash64 docId minWords ngram rest (sid + 1) gid := by
  simp [extractSents, h]

theorem extractSents_cons_keep (hash64 : List Char → Nat)
    (docId minWords ngram : Nat) (s : List Char) (rest : List (List Char))
    (sid gid : Nat)
    (h : ¬ (tokenize_words (normalize_sentence s)).length < minWords) :
    extractSents hash64 docId minWords ngram (s :: rest) sid gid =
      (⟨gid, docId, sid, s, normalize_sentence s,
          simhash_64 hash64 (normalize_sentence s) ngram⟩ ::
        (extractSents hash64 docId minWords ngram rest (sid + 1) (gid + 1)).1,
       (extractSents hash64 docId minWords ngram rest (sid + 1) (gid + 1)).2) := by
  rcases hE : extractSents hash64 docId minWords ngram rest (sid + 1) (gid + 1)
    with ⟨its, g1⟩
  simp [extractSents, h, hE]

set_option maxRecDepth 4000 in
theorem extractSents_spec (hash64 : List Char → Nat)
    (docId minWords ngram : Nat) :
    ∀ (sents : List (List Char)) (sid0 gid0 : Nat),
      List.Pairwise (fun x y : SentItem => x.sentId < y.sentId)
        (extractSents hash64 docId minWords ngram sents sid0 gid0).1 ∧
      ∀ it ∈ (extractSents hash64 docId minWords ngram sents sid0 gid0).1,
        minWords ≤ (tokenize_words it.norm).length ∧
        sid0 ≤ it.sentId ∧ it.sentId - sid0 < sents.length ∧
        sents.getD (it.sentId - sid0) [] = it.raw ∧
        it.norm = normalize_sentence it.raw ∧ it.docId = docId ∧
        it.sig = simhash_64 hash64 it.norm ngram := by
  intro sents
  induction sents with
  | nil =>
    intro sid0 gid0
    constructor
    · simp [extractSents]
    · intro it hit
      simp [extractSents] at hit
  | cons s rest ih =>
    intro sid0 gid0
    by_cases h : (tokenize_words (normalize_sentence s)).length < minWords
    · rw [extractSents_cons_drop hash64 docId minWords ngram s rest sid0 gid0 h]
      obtain ⟨ihp, ihm⟩ := ih (sid0 + 1) gid0
      constructor
      · exact ihp
      · intro it hit
        obtain ⟨m1, m2, m3, m4, m5, m6, m7⟩ := ihm it hit
        refine ⟨m1, by omega, by simp only [List.length_cons]; omega, ?_, m5, m6, m7⟩
        rw [show it.sentId - sid0 = (it.sentId - (sid0 + 1)) + 1 from by omega,
          List.getD_cons_succ]
        exact m4
    · rw [extractSents_cons_keep hash64 docId minWords ngram s rest sid0 gid0 h]
      obtain ⟨ihp, ihm⟩ := ih (sid0 + 1) (gid0 + 1)
      constructor
      · rw [List.pairwise_cons]
        refine ⟨?_, ihp⟩
        intro it hit
        have := (ihm it hit).2.1
        show sid0 < it.sentId
        omega
      · intro it hit
        rcases List.mem_cons.mp hit with hhd | htl
        · subst hhd
          refine ⟨?_, le_rfl, ?_, ?_, rfl, rfl, rfl⟩
          · show minWords ≤ (tokenize_words (normalize_sentence s)).length
            omega
          · show sid0 - sid0 < (s :: rest).length
            simp [Nat.sub_self]
          · show (s :: rest).getD (sid0 - sid0) [] = s
            rw [Nat.sub_self]
            rfl
        · obtain ⟨m1, m2, m3, m4, m5, m6, m7⟩ := ihm it htl
          refine ⟨m1, by omega, by simp only [List.length_cons]; omega, ?_, m5, m6, m7⟩
          rw [show it.sentId - sid0 = (it.sentId - (sid0 + 1)) + 1 from by omega,
            List.getD_cons_succ]
          exact m4

/-- Claim C1, counterexample to the claim as stated: with
`min_sentence_words = 2`, a document whose first split sentence is the
one-token `"hi"` followed by `"aa bb cc"` keeps exactly one sentence,
and its `sent_id` is `1`, not `0`: the per-document `sent_id` set is
not dense starting at 0, because `sent_id` is taken from the pre-filter
enumeration. -/
theorem claim1_counterexample :
    (extractAll (fun _ => 0) 2 3
        [[['h','i'], ['a','a',' ','b','b',' ','c','c']]]).map
        (fun it => it.sentId) = [1] ∧
      0 ∉ (extractAll (fun _ => 0) 2 3
        [[['h','i'], ['a','a',' ','b','b',' ','c','c']]]).map
        (fun it => it.sentId) := by
  decide

/-- Claim C1, amended: sentences whose normalized form has fewer than
`min_sentence_words` word tokens are dropped at extraction; each
surviving sentence's `sent_id` is its zero-based index in the
document's pre-filter split sequence (so per-document `sent_id`s are
strictly increasing and identify `raw` in the split list, but need not
be contiguous or start at 0). -/
theorem claim1_sent_id_is_prefilter_index (hash64 : List Char → Nat)
    (docId minWords ngram gid0 : Nat) (sents : List (List Char)) :
    List.Pairwise (fun x y : SentItem => x.sentId < y.sentId)
      (extractSents hash64 docId minWords ngram sents 0 gid0).1 ∧
    ∀ it ∈ (extractSents hash64 docId minWords ngram sents 0 gid0).1,
      minWords ≤ (tokenize_words it.norm).length ∧
      it.sentId < sents.length ∧
      sents.getD it.sentId [] = it.raw ∧
      it.norm = normalize_sentence it.raw := by
  obtain ⟨hp, hm⟩ := extractSents_spec hash64 docId minWords ngram sents 0 gid0
  refine ⟨hp, ?_⟩
  intro it hit
  obtain ⟨m1, m2, m3, m4, m5, m6, m7⟩ := hm it hit
  exact ⟨m1, by omega, by simpa using m4, m5⟩

/-- Witness for C1's amended statement at the counterexample document. -/
theorem claim1_witness :
    2 ≤ (tokenize_words
        (((extractSents (fun _ => 0) 0 2 3
          [['h','i'], ['a','a',' ','b','b',' ','c','c']] 0 0).1.getD 0
            default).norm)).length ∧
      ((extractSents (fun _ => 0) 0 2 3
        [['h','i'], ['a','a',' ','b','b',' ','c','c']] 0 0).1.getD 0
          default).sentId < 2 := by
  have h := (claim1_sent_id_is_prefilter_index (fun _ => 0) 0 2 3 0
      [['h','i'], ['a','a',' ','b','b',' ','c','c']]).2
    ((extractSents (fun _ => 0) 0 2 3
      [['h','i'], ['a','a',' ','b','b',' ','c','c']] 0 0).1.getD 0 default)
    (by decide)
  exact ⟨h.1, h.2.1⟩

/-! ## Empty corpus and unavailable embedder (C6, C7) -/

/-- Claim C6, counterexample to the claim as stated: on an empty corpus
the run returns before writing anything: no summary file (and no other
file) is emitted, contradicting "emits an empty summary with zero
counts". -/
theorem claim6_counterexample :
    runFiles (fun _ => 0) [] [] [] {} false = [] ∧
      summaryName ∉ runFiles (fun _ => 0) [] [] [] {} false := by
  decide

/-- Claim C6, amended: when no documents are matched the run terminates
successfully (the early-return branch; exit code 0 after printing
"No .docx files found.") and writes no output files at all — in
particular no summary is emitted. -/
theorem claim6_empty_corpus_writes_nothing (hash64 : List Char → Nat)
    (I : List (List Int)) (D : List (List ℚ)) (p : Params)
    (embedderAvailable : Bool) :
    runFiles hash64 [] I D p embedderAvailable = [] := by
  rfl

/-- Claim C7, counterexample to the claim as stated: with embeddings
requested but the embedder unavailable, the run does not emit
`embed_sentence_pairs_strict.csv` at all: `write_embeddings` returns
after writing only the moderate CSV when the pair list is empty. -/
theorem claim7_counterexample :
    embedStrictName ∉ runFiles (fun _ => 0) [[['a']]] [] []
      { use_embeddings := true } false := by
  decide

/-- Claim C7, amended: when embeddings are requested but the embedder is
unavailable, the warning branch runs, the run proceeds with an empty
embedding pair list, and of the two embedding CSVs only
`embed_sentence_pairs.csv` is emitted — empty with the expected 7
header columns; `embed_sentence_pairs_strict.csv` is not written. -/
theorem claim7_embedder_unavailable (hash64 : List Char → Nat)
    (docs : List (List (List Char))) (I : List (List Int))
    (D : List (List ℚ)) (p : Params) (hdocs : docs.isEmpty = false)
    (hemb : p.use_embeddings = true) :
    embedStage (extractAll hash64 p.min_sentence_words p.sim_ngram docs)
        I D p false = ([], true) ∧
      write_embeddings_files [] p.embed_threshold_strict =
        [(embedModName, embedHeader, 0)] ∧
      embedHeader.length = 7 ∧
      runFiles hash64 docs I D p false =
        [exactName, simStrictName, simModName, embedModName, blockName,
          metricsName, summaryName] := by
  have hstage : embedStage (extractAll hash64 p.min_sentence_words p.sim_ngram docs)
      I D p false = ([], true) := by
    unfold embedStage
    rw [if_pos hemb, if_neg (by simp)]
  refine ⟨hstage, rfl, rfl, ?_⟩
  unfold runFiles
  rw [hdocs]
  simp only [Bool.false_eq_true, if_false, hstage]
  rfl

/-- Witness for C7's amended statement at a concrete one-document run. -/
theorem claim7_witness :
    runFiles (fun _ => 0) [[['a']]] [] [] { use_embeddings := true } false =
      [exactName, simStrictName, simModName, embedModName, blockName,
        metricsName, summaryName] :=
  (claim7_embedder_unavailable (fun _ => 0) [[['a']]] [] []
    { use_embeddings := true } (by decide) rfl).2.2.2

/-! ## Sortedness of the emitted CSV row lists and determinism (C9) -/

theorem pairwise_insertLe {α : Type} (le : α → α → Bool)
    (htot : ∀ x y, le x y = true ∨ le y x = true)
    (htrans : ∀ x y z, le x y = true → le y z = true → le x z = true)
    (a : α) (l : List α) (h : l.Pairwise (fun x y => le x y = true)) :
    (insertLe le a l).Pairwise (fun x y => le x y = true) := by
  induction l with
  | nil => simp [insertLe]
  | cons b rest ih =>
    rw [List.pairwise_cons] at h
    obtain ⟨hb, hrest⟩ := h
    unfold insertLe
    by_cases hab : le a b = true
    · rw [if_pos hab, List.pairwise_cons]
      refine ⟨?_, List.pairwise_cons.mpr ⟨hb, hrest⟩⟩
      intro y hy
      rcases List.mem_cons.mp hy with rfl | hy2
      · exact hab
      · exact htrans a b y hab (hb y hy2)
    · rw [if_neg hab, List.pairwise_cons]
      refine ⟨?_, ih hrest⟩
      intro y hy
      rcases List.mem_cons.mp ((insertLe_perm le a rest).mem_iff.mp hy) with rfl | hy2
      · rcases htot y b with h1 | h1
        · exact absurd h1 hab
        · exact h1
      · exact hb y hy2

theorem pairwise_insSort {α : Type} (le : α → α → Bool)
    (htot : ∀ x y, le x y = true ∨ le y x = true)
    (htrans : ∀ x y z, le x y = true → le y z = true → le x z = true)
    (l : List α) : (insSort le l).Pairwise (fun x y => le x y = true) := by
  induction l with
  | nil => simp [insSort]
  | cons a rest ih => exact pairwise_insertLe le htot htrans a _ ih

theorem pairLe_total (x y : Nat × Nat) :
    pairLe x y = true ∨ pairLe y x = true := by
  simp only [pairLe, decide_eq_true_eq]
  omega

theorem pairLe_trans (x y z : Nat × Nat) :
    pairLe x y = true → pairLe y z = true → pairLe x z = true := by
  simp only [pairLe, decide_eq_true_eq]
  omega

theorem simRowLe_total (items : List SentItem) (x y : Nat × Nat × Nat) :
    simRowLe items x y = true ∨ simRowLe items y x = true := by
  simp only [simRowLe, decide_eq_true_eq]
  omega

theorem simRowLe_trans' (items : List SentItem) (x y z : Nat × Nat × Nat) :
    simRowLe items x y = true → simRowLe items y z = true →
      simRowLe items x z = true := by
  simp only [simRowLe, decide_eq_true_eq]
  omega

theorem embedRowLe_total (items : List SentItem) (x y : Nat × Nat × ℚ) :
    embedRowLe items x y = true ∨ embedRowLe items y x = true := by
  simp only [embedRowLe, decide_eq_true_eq]
  rcases lt_trichotomy x.2.2 y.2.2 with h | h | h
  · right
    left
    exact h
  · have hnat : ((items.getD x.1 default).docId < (items.getD y.1 default).docId ∨
        ((items.getD x.1 default).docId = (items.getD y.1 default).docId ∧
         (items.getD x.2.1 default).docId ≤ (items.getD y.2.1 default).docId)) ∨
        ((items.getD y.1 default).docId < (items.getD x.1 default).docId ∨
        ((items.getD y.1 default).docId = (items.getD x.1 default).docId ∧
         (items.getD y.2.1 default).docId ≤ (items.getD x.2.1 default).docId)) := by
      omega
    rcases hnat with hn | hn
    · left
      right
      exact ⟨h, hn⟩
    · right
      right
      exact ⟨h.symm, hn⟩
  · left
    left
    exact h

theorem embedRowLe_trans (items : List SentItem) (x y z : Nat × Nat × ℚ) :
    embedRowLe items x y = true → embedRowLe items y z = true →
      embedRowLe items x z = true := by
  simp only [embedRowLe, decide_eq_true_eq]
  intro hxy hyz
  rcases hxy with h1 | ⟨h1, hn1⟩
  · rcases hyz with h2 | ⟨h2, hn2⟩
    · exact Or.inl (lt_trans h2 h1)
    · exact Or.inl (by rw [← h2]; exact h1)
  · rcases hyz with h2 | ⟨h2, hn2⟩
    · exact Or.inl (by rw [h1]; exact h2)
    · refine Or.inr ⟨h1.trans h2, ?_⟩
      omega

/-- Claim C9: the run is a pure function of its inputs — two runs over
identical documents, neighbor matrices and parameters produce identical
outputs across every modelled artifact — and the emitted CSV row lists
are sorted by their documented keys: exact pairs by `(gid_a, gid_b)`,
SimHash rows (both strata) by `(hamming, docA, docB)`, embedding rows
(both strata) by `(-cosine, docA, docB)`. -/
theorem claim9_deterministic_and_sorted (hash64 : List Char → Nat) :
    (∀ d1 d2 I1 I2 D1 D2 (p1 p2 : Params) a1 a2,
      d1 = d2 → I1 = I2 → D1 = D2 → p1 = p2 → a1 = a2 →
      runAll hash64 d1 I1 D1 p1 a1 = runAll hash64 d2 I2 D2 p2 a2) ∧
    (∀ items, (exact_rows items).Pairwise (fun x y => pairLe x y = true)) ∧
    (∀ items moderate, (simhash_rows_moderate items moderate).Pairwise
      (fun x y => simRowLe items x y = true)) ∧
    (∀ items strict moderate, (simhash_rows_strict items strict moderate).Pairwise
      (fun x y => simRowLe items x y = true)) ∧
    (∀ items epairs moderate, (embed_rows_moderate items epairs moderate).Pairwise
      (fun x y => embedRowLe items x y = true)) ∧
    (∀ items epairs strict, (embed_rows_strict items epairs strict).Pairwise
      (fun x y => embedRowLe items x y = true)) := by
  refine ⟨?_, ?_, ?_, ?_, ?_, ?_⟩
  · intro d1 d2 I1 I2 D1 D2 p1 p2 a1 a2 hd hI hD hp ha
    rw [hd, hI, hD, hp, ha]
  · intro items
    exact pairwise_insSort pairLe pairLe_total pairLe_trans _
  · intro items moderate
    exact pairwise_insSort (simRowLe items) (simRowLe_total items)
      (simRowLe_trans' items) _
  · intro items strict moderate
    exact List.Pairwise.sublist (List.filter_sublist _)
      (pairwise_insSort (simRowLe items) (simRowLe_total items)
        (simRowLe_trans' items) _)
  · intro items epairs moderate
    exact List.Pairwise.sublist (List.filter_sublist _)
      (pairwise_insSort (embedRowLe items) (embedRowLe_total items)
        (embedRowLe_trans items) _)
  · intro items epairs strict
    exact List.Pairwise.sublist (List.filter_sublist _)
      (pairwise_insSort (embedRowLe items) (embedRowLe_total items)
        (embedRowLe_trans items) _)

/-- Witness for C9 at a concrete pair of identical runs. -/
theorem claim9_witness :
    runAll (fun _ => 0) [[['a']]] [] [] {} false =
      runAll (fun _ => 0) [[['a']]] [] [] {} false :=
  (claim9_deterministic_and_sorted (fun _ => 0)).1
    [[['a']]] [[['a']]] [] [] [] [] {} {} false false rfl rfl rfl rfl rfl

/-! ## Association-map lemmas (shared by the exact index and the LSH
buckets) -/

theorem assocFind_mem {α β : Type} [DecidableEq α] (m : List (α × β)) (k : α)
    (v : β) (h : assocFind m k = some v) : (k, v) ∈ m := by
  induction m with
  | nil => simp [assocFind] at h
  | cons e rest ih =>
    obtain ⟨k', v'⟩ := e
    rw [assocFind] at h
    by_cases hk : k' = k
    · rw [if_pos hk] at h
      subst hk
      obtain rfl : v' = v := by injection h
      exact List.mem_cons_self _ _
    · rw [if_neg hk] at h
      exact List.mem_cons_of_mem _ (ih h)

theorem addIdx_inv {α : Type} [DecidableEq α] (P : α → Nat → Prop)
    (key : α) (idx : Nat) :
    ∀ (m : List (α × List Nat)),
      (∀ kl ∈ m, ∀ i ∈ kl.2, P kl.1 i) → P key idx →
      ∀ kl ∈ addIdx m key idx, ∀ i ∈ kl.2, P kl.1 i := by
  intro m
  induction m with
  | nil =>
    intro _ hnew kl hkl i hi
    rw [addIdx] at hkl
    rcases List.mem_singleton.mp hkl with rfl
    rcases List.mem_singleton.mp hi with rfl
    exact hnew
  | cons e rest ih =>
    obtain ⟨k, v⟩ := e
    intro hm hnew kl hkl i hi
    rw [addIdx] at hkl
    by_cases hk : k = key
    · rw [if_pos hk] at hkl
      rcases List.mem_cons.mp hkl with rfl | h2
      · rcases List.mem_append.mp hi with h3 | h3
        · exact hm (k, v) (List.mem_cons_self _ _) i h3
        · rcases List.mem_singleton.mp h3 with rfl
          rw [hk]
          exact hnew
      · exact hm kl (List.mem_cons_of_mem _ h2) i hi
    · rw [if_neg hk] at hkl
      rcases List.mem_cons.mp hkl with rfl | h2
      · exact hm (k, v) (List.mem_cons_self _ _) i hi
      · exact ih (fun kl h => hm kl (List.mem_cons_of_mem _ h)) hnew kl h2 i hi

theorem foldl_addIdx_inv {α : Type} [DecidableEq α] (P : α → Nat → Prop)
    (keyf : Nat → α) :
    ∀ (l : List Nat) (m : List (α × List Nat)),
      (∀ kl ∈ m, ∀ i ∈ kl.2, P kl.1 i) → (∀ i ∈ l, P (keyf i) i) →
      ∀ kl ∈ l.foldl (fun m i => addIdx m (keyf i) i) m, ∀ i ∈ kl.2, P kl.1 i := by
  intro l
  induction l with
  | nil => intro m hm _ kl hkl; exact hm kl hkl
  | cons i0 rest ih =>
    intro m hm hl kl hkl
    exact ih (addIdx m (keyf i0) i0)
      (addIdx_inv P (keyf i0) i0 m hm (hl i0 (List.mem_cons_self _ _)))
      (fun i hi => hl i (List.mem_cons_of_mem _ hi)) kl hkl

theorem bucketGet_mem_entry {α : Type} [DecidableEq α]
    (m : List (α × List Nat)) (k : α) (i : Nat) (h : i ∈ bucketGet m k) :
    ∃ l, assocFind m k = some l ∧ i ∈ l ∧ (k, l) ∈ m := by
  unfold bucketGet at h
  cases hf : assocFind m k with
  | none =>
    rw [hf] at h
    simp at h
  | some l =>
    rw [hf] at h
    exact ⟨l, rfl, h, assocFind_mem m k l hf⟩

theorem bucketGet_addIdx_self {α : Type} [DecidableEq α] (k : α) (i : Nat) :
    ∀ (m : List (α × List Nat)),
      bucketGet (addIdx m k i) k = bucketGet m k ++ [i] := by
  intro m
  induction m with
  | nil => simp [bucketGet, addIdx, assocFind]
  | cons e rest ih =>
    obtain ⟨k', v⟩ := e
    rw [addIdx]
    by_cases hk : k' = k
    · rw [if_pos hk]
      unfold bucketGet assocFind
      rw [if_pos hk, if_pos hk]
      rfl
    · rw [if_neg hk]
      unfold bucketGet assocFind
      rw [if_neg hk, if_neg hk]
      exact ih

theorem bucketGet_addIdx_ne {α : Type} [DecidableEq α] (k k' : α)
    (hk : k' ≠ k) (i : Nat) :
    ∀ (m : List (α × List Nat)),
      bucketGet (addIdx m k' i) k = bucketGet m k := by
  intro m
  induction m with
  | nil =>
    unfold bucketGet addIdx assocFind
    rw [if_neg hk]
    rfl
  | cons e rest ih =>
    obtain ⟨k0, v⟩ := e
    rw [addIdx]
    by_cases hk0 : k0 = k'
    · rw [if_pos hk0]
      unfold bucketGet assocFind
      subst hk0
      rw [if_neg (by exact fun h => hk h), if_neg (by exact fun h => hk h)]
    · rw [if_neg hk0]
      unfold bucketGet assocFind
      by_cases hk1 : k0 = k
      · rw [if_pos hk1, if_pos hk1]
      · rw [if_neg hk1, if_neg hk1]
        exact ih

theorem bucketGet_addIdx_mono {α : Type} [DecidableEq α]
    (m : List (α × List Nat)) (k k' : α) (i j : Nat)
    (h : j ∈ bucketGet m k) : j ∈ bucketGet (addIdx m k' i) k := by
  by_cases hk : k' = k
  · subst hk
    rw [bucketGet_addIdx_self]
    exact List.mem_append_left _ h
  · rw [bucketGet_addIdx_ne k k' hk]
    exact h

theorem addIdx_keys {α : Type} [DecidableEq α] (key : α) (idx : Nat) :
    ∀ (m : List (α × List Nat)),
      (addIdx m key idx).map (·.1) =
        if key ∈ m.map (·.1) then m.map (·.1) else m.map (·.1) ++ [key] := by
  intro m
  induction m with
  | nil => simp [addIdx]
  | cons e rest ih =>
    obtain ⟨k, v⟩ := e
    rw [addIdx]
    by_cases hk : k = key
    · subst hk
      simp
    · rw [if_neg hk]
      simp only [List.map_cons, ih]
      by_cases hmem : key ∈ rest.map (·.1)
      · rw [if_pos hmem, if_pos (List.mem_cons_of_mem _ hmem)]
      · rw [if_neg hmem, if_neg (by
          intro hc
          rcases List.mem_cons.mp hc with hc1 | hc2
          · exact hk hc1.symm
          · exact hmem hc2)]
        simp

theorem foldl_addIdx_keys_nodup {α : Type} [DecidableEq α] (keyf : Nat → α) :
    ∀ (l : List Nat) (m : List (α × List Nat)),
      (m.map (·.1)).Nodup →
      ((l.foldl (fun m i => addIdx m (keyf i) i) m).map (·.1)).Nodup := by
  intro l
  induction l with
  | nil => intro m hm; exact hm
  | cons i0 rest ih =>
    intro m hm
    refine ih (addIdx m (keyf i0) i0) ?_
    rw [addIdx_keys]
    by_cases hmem : keyf i0 ∈ m.map (·.1)
    · rw [if_pos hmem]
      exact hm
    · rw [if_neg hmem]
      refine List.Nodup.append hm (by simp) ?_
      intro a ha hb
      rw [List.mem_singleton] at hb
      subst hb
      exact hmem ha

theorem combos2_ne (l : List Nat) (hl : l.Nodup) :
    ∀ dd ∈ combos2 l, dd.1 ≠ dd.2 ∧ dd.1 ∈ l ∧ dd.2 ∈ l := by
  induction l with
  | nil => intro dd hdd; simp [combos2] at hdd
  | cons d rest ih =>
    intro dd hdd
    rw [List.nodup_cons] at hl
    obtain ⟨hd, hrest⟩ := hl
    rw [combos2] at hdd
    rcases List.mem_append.mp hdd with h1 | h2
    · obtain ⟨d2, hd2, rfl⟩ := List.mem_map.mp h1
      refine ⟨?_, List.mem_cons_self _ _, List.mem_cons_of_mem _ hd2⟩
      intro hc
      apply hd
      rw [show d = d2 from hc]
      exact hd2
    · obtain ⟨hne, h1, h2⟩ := ih hrest dd h2
      exact ⟨hne, List.mem_cons_of_mem _ h1, List.mem_cons_of_mem _ h2⟩

theorem docGroups_inv (items : List SentItem) (idxs : List Nat)
    (hidxs : ∀ i ∈ idxs, i < items.length) :
    ∀ kl ∈ docGroups items idxs, ∀ i ∈ kl.2,
      (items.getD i default).docId = kl.1 ∧ i < items.length := by
  intro kl hkl i hi
  exact foldl_addIdx_inv
    (fun k i => (items.getD i default).docId = k ∧ i < items.length)
    (fun i => (items.getD i default).docId) idxs []
    (by simp) (fun i hi => ⟨rfl, hidxs i hi⟩) kl hkl i hi

theorem docGroups_keys_nodup (items : List SentItem) (idxs : List Nat) :
    ((docGroups items idxs).map (·.1)).Nodup :=
  foldl_addIdx_keys_nodup (fun i => (items.getD i default).docId) idxs []
    (by simp)

theorem byNorm_bound (items : List SentItem) :
    ∀ kl ∈ byNorm items, ∀ i ∈ kl.2, i < items.length := by
  intro kl hkl i hi
  exact foldl_addIdx_inv (fun _ i => i < items.length)
    (fun idx => (items.getD idx default).norm) (List.range items.length) []
    (by simp) (fun i hi => List.mem_range.mp hi) kl hkl i hi

/-! ## Extraction well-formedness: `gid` equals the item's index -/

theorem extractSents_len (hash64 : List Char → Nat)
    (docId minWords ngram : Nat) :
    ∀ (sents : List (List Char)) (sid0 gid0 : Nat),
      (extractSents hash64 docId minWords ngram sents sid0 gid0).2 =
        gid0 + (extractSents hash64 docId minWords ngram sents sid0 gid0).1.length ∧
      ∀ j < (extractSents hash64 docId minWords ngram sents sid0 gid0).1.length,
        ((extractSents hash64 docId minWords ngram sents sid0 gid0).1.getD j
          default).gid = gid0 + j := by
  intro sents
  induction sents with
  | nil =>
    intro sid0 gid0
    constructor
    · simp [extractSents]
    · intro j hj
      simp [extractSents] at hj
  | cons s rest ih =>
    intro sid0 gid0
    by_cases h : (tokenize_words (normalize_sentence s)).length < minWords
    · rw [extractSents_cons_drop hash64 docId minWords ngram s rest sid0 gid0 h]
      exact ih (sid0 + 1) gid0
    · rw [extractSents_cons_keep hash64 docId minWords ngram s rest sid0 gid0 h]
      obtain ⟨ihl, ihg⟩ := ih (sid0 + 1) (gid0 + 1)
      constructor
      · simp only [List.length_cons, ihl]
        omega
      · intro j hj
        match j with
        | 0 => rfl
        | j + 1 =>
          simp only [List.length_cons] at hj
          rw [List.getD_cons_succ, ihg j (by omega)]
          omega

theorem extractAllAux_cons (hash64 : List Char → Nat) (minWords ngram : Nat)
    (doc : List (List Char)) (rest : List (List (List Char)))
    (docId gid : Nat) :
    extractAllAux hash64 minWords ngram (doc :: rest) docId gid =
      (extractSents hash64 docId minWords ngram doc 0 gid).1 ++
        extractAllAux hash64 minWords ngram rest (docId + 1)
          (extractSents hash64 docId minWords ngram doc 0 gid).2 := by
  rcases hE : extractSents hash64 docId minWords ngram doc 0 gid with ⟨its, g1⟩
  simp [extractAllAux, hE]

theorem extractAllAux_gid (hash64 : List Char → Nat) (minWords ngram : Nat) :
    ∀ (docs : List (List (List Char))) (docId0 gid0 : Nat),
      ∀ j < (extractAllAux hash64 minWords ngram docs docId0 gid0).length,
        ((extractAllAux hash64 minWords ngram docs docId0 gid0).getD j
          default).gid = gid0 + j := by
  intro docs
  induction docs with
  | nil =>
    intro docId0 gid0 j hj
    simp [extractAllAux] at hj
  | cons doc rest ih =>
    intro docId0 gid0 j hj
    rw [extractAllAux_cons] at hj ⊢
    obtain ⟨hlen, hg⟩ := extractSents_len hash64 docId0 minWords ngram doc 0 gid0
    by_cases hjl : j < (extractSents hash64 docId0 minWords ngram doc 0 gid0).1.length
    · rw [List.getD_append _ _ _ _ hjl]
      exact hg j hjl
    · rw [List.length_append] at hj
      rw [List.getD_append_right _ _ _ _ (by omega)]
      rw [ih (docId0 + 1) (extractSents hash64 docId0 minWords ngram doc 0 gid0).2
        _ (by omega)]
      omega

/-- In `all_items`, the `gid` of the item at index `j` is `j` itself. -/
theorem extractAll_gid (hash64 : List Char → Nat) (minWords ngram : Nat)
    (docs : List (List (List Char))) :
    ∀ j < (extractAll hash64 minWords ngram docs).length,
      ((extractAll hash64 minWords ngram docs).getD j default).gid = j := by
  intro j hj
  have h := extractAllAux_gid hash64 minWords ngram docs 0 0 j hj
  simpa using h

/-- Every extracted item's signature is the SimHash of its `norm`. -/
theorem extractAllAux_wf (hash64 : List Char → Nat) (minWords ngram : Nat) :
    ∀ (docs : List (List (List Char))) (docId0 gid0 : Nat),
      ∀ it ∈ extractAllAux hash64 minWords ngram docs docId0 gid0,
        it.sig = simhash_64 hash64 it.norm ngram := by
  intro docs
  induction docs with
  | nil =>
    intro docId0 gid0 it hit
    simp [extractAllAux] at hit
  | cons doc rest ih =>
    intro docId0 gid0 it hit
    rw [extractAllAux_cons] at hit
    rcases List.mem_append.mp hit with h1 | h2
    · exact ((extractSents_spec hash64 docId0 minWords ngram doc 0 gid0).2
        it h1).2.2.2.2.2.2
    · exact ih (docId0 + 1) _ it h2

/-! ## Soundness of the exact channel -/

theorem canonPair_lt (ia ib : Nat) (h : ia ≠ ib) :
    (canonPair ia ib).1 < (canonPair ia ib).2 := by
  unfold canonPair
  by_cases hlt : ia < ib
  · rw [if_pos hlt]
    exact hlt
  · rw [if_neg hlt]
    show ib < ia
    omega

theorem canonPair_cases (ia ib : Nat) :
    canonPair ia ib = (ia, ib) ∨ canonPair ia ib = (ib, ia) := by
  unfold canonPair
  by_cases hlt : ia < ib
  · rw [if_pos hlt]
    exact Or.inl rfl
  · rw [if_neg hlt]
    exact Or.inr rfl

theorem exactGroupPairs_sound (items : List SentItem) (idxs : List Nat)
    (hidxs : ∀ i ∈ idxs, i < items.length) :
    ∀ ab ∈ exactGroupPairs items idxs,
      ab.1 < ab.2 ∧ ab.1 < items.length ∧ ab.2 < items.length ∧
      (items.getD ab.1 default).docId ≠ (items.getD ab.2 default).docId := by
  intro ab hab
  unfold exactGroupPairs at hab
  by_cases h1 : idxs.length < 2
  · rw [if_pos h1] at hab
    simp at hab
  rw [if_neg h1] at hab
  by_cases h2 : (insSort (fun a b => a ≤ b)
      ((docGroups items idxs).map (·.1))).length < 2
  · rw [if_pos h2] at hab
    simp at hab
  rw [if_neg h2] at hab
  obtain ⟨dd, hdd, hab2⟩ := List.mem_flatMap.mp hab
  obtain ⟨ia, hia, hab3⟩ := List.mem_flatMap.mp hab2
  obtain ⟨ib, hib, rfl⟩ := List.mem_map.mp hab3
  have hnd : (insSort (fun a b => a ≤ b)
      ((docGroups items idxs).map (·.1))).Nodup :=
    ((insSort_perm _ _).nodup_iff).mpr (docGroups_keys_nodup items idxs)
  obtain ⟨hne, _, _⟩ := combos2_ne _ hnd dd hdd
  obtain ⟨l1, hf1, hil1, hent1⟩ :=
    bucketGet_mem_entry (docGroups items idxs) dd.1 ia hia
  obtain ⟨l2, hf2, hil2, hent2⟩ :=
    bucketGet_mem_entry (docGroups items idxs) dd.2 ib hib
  have hinv1 := docGroups_inv items idxs hidxs (dd.1, l1) hent1 ia hil1
  have hinv2 := docGroups_inv items idxs hidxs (dd.2, l2) hent2 ib hil2
  have hdocne : (items.getD ia default).docId ≠ (items.getD ib default).docId := by
    rw [hinv1.1, hinv2.1]
    exact hne
  have hne2 : ia ≠ ib := fun hc => hdocne (by rw [hc])
  have hlt := canonPair_lt ia ib hne2
  rcases canonPair_cases ia ib with hcc | hcc <;> rw [hcc] at hlt ⊢
  · exact ⟨hlt, hinv1.2, hinv2.2, hdocne⟩
  · exact ⟨hlt, hinv2.2, hinv1.2, fun hc => hdocne hc.symm⟩

theorem exact_pairs_sound (items : List SentItem) :
    ∀ ab ∈ exact_pairs items,
      ab.1 < ab.2 ∧ ab.1 < items.length ∧ ab.2 < items.length ∧
      (items.getD ab.1 default).docId ≠ (items.getD ab.2 default).docId := by
  unfold exact_pairs
  have hgen : ∀ (groups : List (List Char × List Nat)) (acc : List (Nat × Nat)),
      (∀ ab ∈ acc,
        ab.1 < ab.2 ∧ ab.1 < items.length ∧ ab.2 < items.length ∧
        (items.getD ab.1 default).docId ≠ (items.getD ab.2 default).docId) →
      (∀ kl ∈ groups, ∀ i ∈ kl.2, i < items.length) →
      ∀ ab ∈ groups.foldl (fun acc nidxs => acc ++ exactGroupPairs items nidxs.2) acc,
        ab.1 < ab.2 ∧ ab.1 < items.length ∧ ab.2 < items.length ∧
        (items.getD ab.1 default).docId ≠ (items.getD ab.2 default).docId := by
    intro groups
    induction groups with
    | nil =>
      intro acc hacc _ ab hab
      exact hacc ab hab
    | cons g rest ih =>
      intro acc hacc hg ab hab
      refine ih _ ?_ (fun kl hkl => hg kl (List.mem_cons_of_mem _ hkl)) ab hab
      intro ab2 hab2
      rcases List.mem_append.mp hab2 with ha | hb
      · exact hacc ab2 ha
      · exact exactGroupPairs_sound items g.2 (hg g (List.mem_cons_self _ _)) ab2 hb
  exact hgen (byNorm items) [] (by simp) (byNorm_bound items)

/-! ## Soundness and completeness of the SimHash LSH channel -/

theorem canonPair_comm (ia ib : Nat) (h : ia ≠ ib) :
    canonPair ia ib = canonPair ib ia := by
  unfold canonPair
  by_cases hlt : ia < ib
  · rw [if_pos hlt, if_neg (by omega)]
  · rw [if_neg hlt, if_pos (by omega)]

theorem processPair_grow (items : List SentItem) (moderate : Nat)
    (st : SimState) (ia ib : Nat) :
    (∀ ab ∈ st.1, ab ∈ (processPair items moderate st ia ib).1) ∧
    (∀ abh ∈ st.2, abh ∈ (processPair items moderate st ia ib).2) := by
  unfold processPair
  by_cases h1 : (items.getD ia default).docId = (items.getD ib default).docId
  · rw [if_pos h1]
    exact ⟨fun _ h => h, fun _ h => h⟩
  rw [if_neg h1]
  by_cases h2 : canonPair ia ib ∈ st.1
  · rw [if_pos h2]
    exact ⟨fun _ h => h, fun _ h => h⟩
  rw [if_neg h2]
  by_cases h3 : hamming (items.getD (canonPair ia ib).1 default).sig
      (items.getD (canonPair ia ib).2 default).sig ≤ moderate
  · rw [if_pos h3]
    exact ⟨fun ab h => List.mem_cons_of_mem _ h,
      fun abh h => List.mem_append_left _ h⟩
  · rw [if_neg h3]
    exact ⟨fun _ h => h, fun _ h => h⟩

theorem processPair_inv (items : List SentItem) (moderate : Nat)
    (st : SimState) (ia ib : Nat) (hia : ia < items.length)
    (hib : ib < items.length) (h : SimInv items moderate st) :
    SimInv items moderate (processPair items moderate st ia ib) := by
  unfold processPair
  by_cases h1 : (items.getD ia default).docId = (items.getD ib default).docId
  · rw [if_pos h1]
    exact h
  rw [if_neg h1]
  by_cases h2 : canonPair ia ib ∈ st.1
  · rw [if_pos h2]
    exact h
  rw [if_neg h2]
  by_cases h3 : hamming (items.getD (canonPair ia ib).1 default).sig
      (items.getD (canonPair ia ib).2 default).sig ≤ moderate
  swap
  · rw [if_neg h3]
    exact h
  rw [if_pos h3]
  obtain ⟨hseen, hpairs⟩ := h
  have hne : ia ≠ ib := fun hc => h1 (by rw [hc])
  constructor
  · intro ab hab
    rcases List.mem_cons.mp hab with rfl | h4
    · exact List.mem_append_right _ (by simp)
    · exact List.mem_append_left _ (hseen ab h4)
  · intro abh habh
    rcases List.mem_append.mp habh with h4 | h4
    · exact hpairs abh h4
    · rcases List.mem_singleton.mp h4 with rfl
      have hlt := canonPair_lt ia ib hne
      have hdoc2 : (items.getD (canonPair ia ib).1 default).docId ≠
          (items.getD (canonPair ia ib).2 default).docId := by
        rcases canonPair_cases ia ib with hcc | hcc <;> rw [hcc]
        · exact h1
        · exact fun hc => h1 hc.symm
      have hbnd1 : (canonPair ia ib).1 < items.length := by
        rcases canonPair_cases ia ib with hcc | hcc <;> rw [hcc]
        · exact hia
        · exact hib
      have hbnd2 : (canonPair ia ib).2 < items.length := by
        rcases canonPair_cases ia ib with hcc | hcc <;> rw [hcc]
        · exact hib
        · exact hia
      exact ⟨hlt, hbnd1, hbnd2, hdoc2, rfl, h3⟩

theorem processPair_seen (items : List SentItem) (moderate : Nat)
    (st : SimState) (ia ib : Nat)
    (hdoc : (items.getD ia default).docId ≠ (items.getD ib default).docId)
    (hham : hamming (items.getD (canonPair ia ib).1 default).sig
      (items.getD (canonPair ia ib).2 default).sig ≤ moderate) :
    canonPair ia ib ∈ (processPair items moderate st ia ib).1 := by
  unfold processPair
  rw [if_neg hdoc]
  by_cases h2 : canonPair ia ib ∈ st.1
  · rw [if_pos h2]
    exact h2
  · rw [if_neg h2, if_pos hham]
    exact List.mem_cons_self _ _

theorem innerFold_grow (items : List SentItem) (moderate : Nat) (ia : Nat) :
    ∀ (rest : List Nat) (st : SimState),
      (∀ ab ∈ st.1,
        ab ∈ (rest.foldl (fun st ib => processPair items moderate st ia ib) st).1) ∧
      (∀ abh ∈ st.2,
        abh ∈ (rest.foldl (fun st ib => processPair items moderate st ia ib) st).2) := by
  intro rest
  induction rest with
  | nil =>
    intro st
    exact ⟨fun _ h => h, fun _ h => h⟩
  | cons ib rest ih =>
    intro st
    obtain ⟨g1, g2⟩ := processPair_grow items moderate st ia ib
    obtain ⟨f1, f2⟩ := ih (processPair items moderate st ia ib)
    exact ⟨fun ab h => f1 ab (g1 ab h), fun abh h => f2 abh (g2 abh h)⟩

theorem innerFold_inv (items : List SentItem) (moderate : Nat) (ia : Nat)
    (hia : ia < items.length) :
    ∀ (rest : List Nat) (st : SimState), (∀ ib ∈ rest, ib < items.length) →
      SimInv items moderate st →
      SimInv items moderate
        (rest.foldl (fun st ib => processPair items moderate st ia ib) st) := by
  intro rest
  induction rest with
  | nil =>
    intro st _ h
    exact h
  | cons ib rest ih =>
    intro st hrest h
    exact ih _ (fun i hi => hrest i (List.mem_cons_of_mem _ hi))
      (processPair_inv items moderate st ia ib hia
        (hrest ib (List.mem_cons_self _ _)) h)

theorem innerFold_complete (items : List SentItem) (moderate : Nat)
    (ia ib : Nat)
    (hdoc : (items.getD ia default).docId ≠ (items.getD ib default).docId)
    (hham : hamming (items.getD (canonPair ia ib).1 default).sig
      (items.getD (canonPair ia ib).2 default).sig ≤ moderate) :
    ∀ (rest : List Nat) (st : SimState), ib ∈ rest →
      canonPair ia ib ∈
        (rest.foldl (fun st ib => processPair items moderate st ia ib) st).1 := by
  intro rest
  induction rest with
  | nil =>
    intro st h
    simp at h
  | cons ib0 rest ih =>
    intro st hib
    rcases List.mem_cons.mp hib with rfl | h2
    · exact (innerFold_grow items moderate ia rest _).1 _
        (processPair_seen items moderate st ia ib hdoc hham)
    · exact ih _ h2

theorem processBucket_grow (items : List SentItem) (moderate : Nat) :
    ∀ (l : List Nat) (st : SimState),
      (∀ ab ∈ st.1, ab ∈ (processBucket items moderate l st).1) ∧
      (∀ abh ∈ st.2, abh ∈ (processBucket items moderate l st).2) := by
  intro l
  induction l with
  | nil =>
    intro st
    exact ⟨fun _ h => h, fun _ h => h⟩
  | cons ia rest ih =>
    intro st
    rw [processBucket]
    obtain ⟨g1, g2⟩ := innerFold_grow items moderate ia rest st
    obtain ⟨f1, f2⟩ := ih
      (rest.foldl (fun st ib => processPair items moderate st ia ib) st)
    exact ⟨fun ab h => f1 ab (g1 ab h), fun abh h => f2 abh (g2 abh h)⟩

theorem processBucket_inv (items : List SentItem) (moderate : Nat) :
    ∀ (l : List Nat) (st : SimState), (∀ i ∈ l, i < items.length) →
      SimInv items moderate st →
      SimInv items moderate (processBucket items moderate l st) := by
  intro l
  induction l with
  | nil =>
    intro st _ h
    exact h
  | cons ia rest ih =>
    intro st hl h
    rw [processBucket]
    exact ih _ (fun i hi => hl i (List.mem_cons_of_mem _ hi))
      (innerFold_inv items moderate ia (hl ia (List.mem_cons_self _ _)) rest st
        (fun i hi => hl i (List.mem_cons_of_mem _ hi)) h)

theorem processBucket_complete (items : List SentItem) (moderate : Nat)
    (ia ib : Nat) (hne : ia ≠ ib)
    (hdoc : (items.getD ia default).docId ≠ (items.getD ib default).docId)
    (hham : hamming (items.getD (canonPair ia ib).1 default).sig
      (items.getD (canonPair ia ib).2 default).sig ≤ moderate) :
    ∀ (l : List Nat) (st : SimState), ia ∈ l → ib ∈ l →
      canonPair ia ib ∈ (processBucket items moderate l st).1 := by
  intro l
  induction l with
  | nil =>
    intro st h
    simp at h
  | cons x rest ih =>
    intro st hial hibl
    rw [processBucket]
    rcases List.mem_cons.mp hial with rfl | hia2
    · rcases List.mem_cons.mp hibl with hc | hib2
      · exact (hne hc.symm).elim
      · exact (processBucket_grow items moderate rest _).1 _
          (innerFold_complete items moderate ia ib hdoc hham rest st hib2)
    · rcases List.mem_cons.mp hibl with rfl | hib2
      · have hcomm := canonPair_comm ia ib hne
        rw [hcomm]
        refine (processBucket_grow items moderate rest _).1 _ ?_
        refine innerFold_complete items moderate ib ia
          (fun hc => hdoc hc.symm) ?_ rest st hia2
        rw [← hcomm]
        exact hham
      · exact ih _ hia2 hib2

theorem bucketsFold_grow (items : List SentItem) (moderate : Nat) :
    ∀ (bs : List ((Nat × Nat) × List Nat)) (st : SimState),
      (∀ ab ∈ st.1,
        ab ∈ (bs.foldl (fun st bucket => processBucket items moderate bucket.2 st) st).1) ∧
      (∀ abh ∈ st.2,
        abh ∈ (bs.foldl (fun st bucket => processBucket items moderate bucket.2 st) st).2) := by
  intro bs
  induction bs with
  | nil =>
    intro st
    exact ⟨fun _ h => h, fun _ h => h⟩
  | cons b rest ih =>
    intro st
    obtain ⟨g1, g2⟩ := processBucket_grow items moderate b.2 st
    obtain ⟨f1, f2⟩ := ih (processBucket items moderate b.2 st)
    exact ⟨fun ab h => f1 ab (g1 ab h), fun abh h => f2 abh (g2 abh h)⟩

theorem bucketsFold_inv (items : List SentItem) (moderate : Nat) :
    ∀ (bs : List ((Nat × Nat) × List Nat)) (st : SimState),
      (∀ b ∈ bs, ∀ i ∈ b.2, i < items.length) → SimInv items moderate st →
      SimInv items moderate
        (bs.foldl (fun st bucket => processBucket items moderate bucket.2 st) st) := by
  intro bs
  induction bs with
  | nil =>
    intro st _ h
    exact h
  | cons b rest ih =>
    intro st hbs h
    exact ih _ (fun b2 hb2 => hbs b2 (List.mem_cons_of_mem _ hb2))
      (processBucket_inv items moderate b.2 st
        (hbs b (List.mem_cons_self _ _)) h)

theorem bucketsFold_complete (items : List SentItem) (moderate : Nat)
    (ia ib : Nat) (hne : ia ≠ ib)
    (hdoc : (items.getD ia default).docId ≠ (items.getD ib default).docId)
    (hham : hamming (items.getD (canonPair ia ib).1 default).sig
      (items.getD (canonPair ia ib).2 default).sig ≤ moderate) :
    ∀ (bs : List ((Nat × Nat) × List Nat)) (st : SimState)
      (k : Nat × Nat) (l : List Nat), (k, l) ∈ bs → ia ∈ l → ib ∈ l →
      canonPair ia ib ∈
        (bs.foldl (fun st bucket => processBucket items moderate bucket.2 st) st).1 := by
  intro bs
  induction bs with
  | nil =>
    intro st k l h
    simp at h
  | cons b rest ih =>
    intro st k l hkl hia hib
    rcases List.mem_cons.mp hkl with rfl | h2
    · exact (bucketsFold_grow items moderate rest _).1 _
        (processBucket_complete items moderate ia ib hne hdoc hham l st hia hib)
    · exact ih _ k l h2 hia hib

theorem foldKeys_inv {α : Type} [DecidableEq α] (P : α → Nat → Prop)
    (idx : Nat) :
    ∀ (keys : List α) (m : List (α × List Nat)),
      (∀ kl ∈ m, ∀ i ∈ kl.2, P kl.1 i) → (∀ key ∈ keys, P key idx) →
      ∀ kl ∈ keys.foldl (fun m k => addIdx m k idx) m, ∀ i ∈ kl.2, P kl.1 i := by
  intro keys
  induction keys with
  | nil =>
    intro m hm _ kl hkl
    exact hm kl hkl
  | cons k0 ks ih =>
    intro m hm hk kl hkl
    exact ih _ (addIdx_inv P k0 idx m hm (hk k0 (List.mem_cons_self _ _)))
      (fun key hkey => hk key (List.mem_cons_of_mem _ hkey)) kl hkl

theorem buildBuckets_bound (items : List SentItem) :
    ∀ kl ∈ buildBuckets items, ∀ i ∈ kl.2, i < items.length := by
  unfold buildBuckets
  have hgen : ∀ (l : List Nat) (m : List ((Nat × Nat) × List Nat)),
      (∀ kl ∈ m, ∀ i ∈ kl.2, i < items.length) → (∀ i ∈ l, i < items.length) →
      ∀ kl ∈ l.foldl (fun m idx =>
          (bands_64 (items.getD idx default).sig 8 8).foldl
            (fun m key => addIdx m key idx) m) m,
        ∀ i ∈ kl.2, i < items.length := by
    intro l
    induction l with
    | nil =>
      intro m hm _ kl hkl
      exact hm kl hkl
    | cons i0 rest ih =>
      intro m hm hl
      exact ih _
        (foldKeys_inv (fun _ i => i < items.length) i0 _ m hm
          (fun _ _ => hl i0 (List.mem_cons_self _ _)))
        (fun i hi => hl i (List.mem_cons_of_mem _ hi))
  exact hgen (List.range items.length) [] (by simp)
    (fun i hi => List.mem_range.mp hi)

theorem bucketGet_foldKeys_mono {α : Type} [DecidableEq α] (idx : Nat) :
    ∀ (keys : List α) (m : List (α × List Nat)) (k : α) (j : Nat),
      j ∈ bucketGet m k →
      j ∈ bucketGet (keys.foldl (fun m key => addIdx m key idx) m) k := by
  intro keys
  induction keys with
  | nil =>
    intro m k j h
    exact h
  | cons k0 ks ih =>
    intro m k j h
    exact ih _ k j (bucketGet_addIdx_mono m k k0 idx j h)

theorem bucketGet_foldKeys_self {α : Type} [DecidableEq α] (idx : Nat) :
    ∀ (keys : List α) (m : List (α × List Nat)) (key : α), key ∈ keys →
      idx ∈ bucketGet (keys.foldl (fun m k => addIdx m k idx) m) key := by
  intro keys
  induction keys with
  | nil =>
    intro m key h
    simp at h
  | cons k0 ks ih =>
    intro m key hkey
    rcases List.mem_cons.mp hkey with rfl | h2
    · refine bucketGet_foldKeys_mono idx ks _ key idx ?_
      rw [bucketGet_addIdx_self]
      exact List.mem_append_right _ (List.mem_singleton.mpr rfl)
    · exact ih _ key h2

theorem buildBuckets_mem (items : List SentItem) (idx : Nat)
    (hidx : idx < items.length) (key : Nat × Nat)
    (hkey : key ∈ bands_64 (items.getD idx default).sig 8 8) :
    idx ∈ bucketGet (buildBuckets items) key := by
  unfold buildBuckets
  have hmono : ∀ (l : List Nat) (m : List ((Nat × Nat) × List Nat))
      (k : Nat × Nat) (j : Nat), j ∈ bucketGet m k →
      j ∈ bucketGet (l.foldl (fun m idx =>
        (bands_64 (items.getD idx default).sig 8 8).foldl
          (fun m key => addIdx m key idx) m) m) k := by
    intro l
    induction l with
    | nil =>
      intro m k j h
      exact h
    | cons i0 rest ih =>
      intro m k j h
      exact ih _ k j (bucketGet_foldKeys_mono i0 _ m k j h)
  have hself : ∀ (l : List Nat) (m : List ((Nat × Nat) × List Nat)),
      idx ∈ l →
      idx ∈ bucketGet (l.foldl (fun m idx =>
        (bands_64 (items.getD idx default).sig 8 8).foldl
          (fun m key => addIdx m key idx) m) m) key := by
    intro l
    induction l with
    | nil =>
      intro m h
      simp at h
    | cons i0 rest ih =>
      intro m hmem
      rcases List.mem_cons.mp hmem with rfl | h2
      · exact hmono rest _ key idx (bucketGet_foldKeys_self idx _ m key hkey)
      · exact ih _ h2
  exact hself (List.range items.length) [] (List.mem_range.mpr hidx)

theorem sim_pairs_sound (items : List SentItem) (moderate : Nat) :
    ∀ abh ∈ sim_pairs items moderate, SimPairOk items moderate abh := by
  intro abh habh
  exact (bucketsFold_inv items moderate (buildBuckets items) ([], [])
    (buildBuckets_bound items) ⟨by simp, by simp⟩).2 abh habh

theorem sim_pairs_complete (items : List SentItem) (moderate : Nat)
    (ia ib : Nat) (hia : ia < items.length) (hib : ib < items.length)
    (hne : ia ≠ ib)
    (hdoc : (items.getD ia default).docId ≠ (items.getD ib default).docId)
    (hsig : (items.getD ia default).sig = (items.getD ib default).sig) :
    ((canonPair ia ib).1, (canonPair ia ib).2, 0) ∈ sim_pairs items moderate := by
  have hham0 : hamming (items.getD (canonPair ia ib).1 default).sig
      (items.getD (canonPair ia ib).2 default).sig = 0 := by
    have hs : (items.getD (canonPair ia ib).1 default).sig =
        (items.getD (canonPair ia ib).2 default).sig := by
      rcases canonPair_cases ia ib with hcc | hcc <;> rw [hcc]
      · exact hsig
      · exact hsig.symm
    rw [hs]
    unfold hamming
    rw [Nat.xor_self]
    exact bitCount_zero
  have hkey : (0, ((items.getD ia default).sig >>> (0 * 8)) &&& ((1 <<< 8) - 1)) ∈
      bands_64 (items.getD ia default).sig 8 8 :=
    List.mem_map.mpr ⟨0, List.mem_range.mpr (by decide), rfl⟩
  have hkey2 : (0, ((items.getD ia default).sig >>> (0 * 8)) &&& ((1 <<< 8) - 1)) ∈
      bands_64 (items.getD ib default).sig 8 8 := by
    rw [← hsig]
    exact hkey
  have hmema := buildBuckets_mem items ia hia _ hkey
  have hmemb := buildBuckets_mem items ib hib _ hkey2
  obtain ⟨l, hf, hial, hentry⟩ := bucketGet_mem_entry (buildBuckets items) _ ia hmema
  have hibl : ib ∈ l := by
    unfold bucketGet at hmemb
    rw [hf] at hmemb
    exact hmemb
  have hseen := bucketsFold_complete items moderate ia ib hne hdoc
    (by rw [hham0]; exact Nat.zero_le _) (buildBuckets items) ([], []) _ l
    hentry hial hibl
  have hinv := bucketsFold_inv items moderate (buildBuckets items) ([], [])
    (buildBuckets_bound items) ⟨by simp, by simp⟩
  have hrow := hinv.1 _ hseen
  rw [hham0] at hrow
  exact hrow

/-! ## Soundness of the embedding channel -/

theorem embedRaw_sound (items : List SentItem) (I : List (List Int))
    (D : List (List ℚ)) (moderate : ℚ)
    (hI : ∀ row ∈ I, ∀ j ∈ row, j < 0 ∨ j.toNat < items.length) :
    ∀ abs ∈ embedRaw items I D moderate,
      abs.1 < abs.2.1 ∧ abs.1 < items.length ∧ abs.2.1 < items.length ∧
      (items.getD abs.1 default).docId ≠ (items.getD abs.2.1 default).docId := by
  have hrow : ∀ i : Nat, ∀ j ∈ I.getD i [], j < 0 ∨ j.toNat < items.length := by
    intro i j hj
    by_cases hi : i < I.length
    · refine hI (I.getD i []) ?_ j hj
      rw [List.getD_eq_getElem I [] hi]
      exact List.getElem_mem hi
    · rw [List.getD_eq_default I [] (by omega)] at hj
      simp at hj
  have hinner : ∀ (i : Nat), i < items.length →
      ∀ (zl : List (Int × ℚ)) (acc : List (Nat × Nat × ℚ)),
      (∀ js ∈ zl, js.1 < 0 ∨ js.1.toNat < items.length) →
      (∀ e ∈ acc, e.1 < e.2.1 ∧ e.1 < items.length ∧ e.2.1 < items.length ∧
        (items.getD e.1 default).docId ≠ (items.getD e.2.1 default).docId) →
      ∀ e ∈ zl.foldl (fun acc js =>
          if js.1 < 0 then acc
          else if (items.getD i default).docId =
              (items.getD js.1.toNat default).docId then acc
          else if moderate ≤ js.2 then
            acc ++ [((canonPair i js.1.toNat).1, (canonPair i js.1.toNat).2, js.2)]
          else acc) acc,
        e.1 < e.2.1 ∧ e.1 < items.length ∧ e.2.1 < items.length ∧
        (items.getD e.1 default).docId ≠ (items.getD e.2.1 default).docId := by
    intro i hi zl
    induction zl with
    | nil =>
      intro acc _ hacc e he
      exact hacc e he
    | cons js rest ih =>
      intro acc hzl hacc e he
      rw [List.foldl_cons] at he
      refine ih _ (fun js2 hjs2 => hzl js2 (List.mem_cons_of_mem _ hjs2)) ?_ e he
      intro e2 he2
      by_cases h1 : js.1 < 0
      · rw [if_pos h1] at he2
        exact hacc e2 he2
      rw [if_neg h1] at he2
      by_cases h2 : (items.getD i default).docId =
          (items.getD js.1.toNat default).docId
      · rw [if_pos h2] at he2
        exact hacc e2 he2
      rw [if_neg h2] at he2
      by_cases h3 : moderate ≤ js.2
      swap
      · rw [if_neg h3] at he2
        exact hacc e2 he2
      rw [if_pos h3] at he2
      rcases List.mem_append.mp he2 with h4 | h4
      · exact hacc e2 h4
      rcases List.mem_singleton.mp h4 with rfl
      have hjn : js.1.toNat < items.length := by
        rcases hzl js (List.mem_cons_self _ _) with hc | hc
        · exact absurd hc h1
        · exact hc
      have hne : i ≠ js.1.toNat := fun hc => h2 (by rw [hc])
      have hlt := canonPair_lt i js.1.toNat hne
      have hb1 : (canonPair i js.1.toNat).1 < items.length := by
        rcases canonPair_cases i js.1.toNat with hcc | hcc <;> rw [hcc]
        · exact hi
        · exact hjn
      have hb2 : (canonPair i js.1.toNat).2 < items.length := by
        rcases canonPair_cases i js.1.toNat with hcc | hcc <;> rw [hcc]
        · exact hjn
        · exact hi
      have hdoc2 : (items.getD (canonPair i js.1.toNat).1 default).docId ≠
          (items.getD (canonPair i js.1.toNat).2 default).docId := by
        rcases canonPair_cases i js.1.toNat with hcc | hcc <;> rw [hcc]
        · exact h2
        · exact fun hc => h2 hc.symm
      exact ⟨hlt, hb1, hb2, hdoc2⟩
  have houter : ∀ (l : List Nat) (acc : List (Nat × Nat × ℚ)),
      (∀ i ∈ l, i < items.length) →
      (∀ e ∈ acc, e.1 < e.2.1 ∧ e.1 < items.length ∧ e.2.1 < items.length ∧
        (items.getD e.1 default).docId ≠ (items.getD e.2.1 default).docId) →
      ∀ e ∈ l.foldl (fun acc i =>
          acc ++ (((I.getD i []).drop 1).zip ((D.getD i []).drop 1)).foldl
            (fun acc js =>
              if js.1 < 0 then acc
              else if (items.getD i default).docId =
                  (items.getD js.1.toNat default).docId then acc
              else if moderate ≤ js.2 then
                acc ++ [((canonPair i js.1.toNat).1, (canonPair i js.1.toNat).2, js.2)]
              else acc) []) acc,
        e.1 < e.2.1 ∧ e.1 < items.length ∧ e.2.1 < items.length ∧
        (items.getD e.1 default).docId ≠ (items.getD e.2.1 default).docId := by
    intro l
    induction l with
    | nil =>
      intro acc _ hacc e he
      exact hacc e he
    | cons i0 rest ih =>
      intro acc hl hacc e he
      rw [List.foldl_cons] at he
      refine ih _ (fun i hi => hl i (List.mem_cons_of_mem _ hi)) ?_ e he
      intro e2 he2
      rcases List.mem_append.mp he2 with h4 | h4
      · exact hacc e2 h4
      · refine hinner i0 (hl i0 (List.mem_cons_self _ _)) _ [] ?_ (by simp) e2 h4
        intro js hjs
        have hz := List.of_mem_zip hjs
        exact hrow i0 js.1 (List.mem_of_mem_drop hz.1)
  intro abs habs
  exact houter (List.range items.length) [] (fun i hi => List.mem_range.mp hi)
    (by simp) abs habs

theorem dedupeStep_keys (ps : List (Nat × Nat × ℚ))
    (m : List ((Nat × Nat) × ℚ)) (abs : Nat × Nat × ℚ) (habs : abs ∈ ps)
    (hm : ∀ e ∈ m, ∃ s, (e.1.1, e.1.2, s) ∈ ps) :
    ∀ e ∈ dedupeStep m abs, ∃ s, (e.1.1, e.1.2, s) ∈ ps := by
  intro e2 he2
  unfold dedupeStep at he2
  cases hf : assocFind m (abs.1, abs.2.1) with
  | some s0 =>
    rw [hf] at he2
    obtain ⟨e0, he0, rfl⟩ := List.mem_map.mp he2
    obtain ⟨s, hs⟩ := hm e0 he0
    by_cases hkey : e0.1 = (abs.1, abs.2.1)
    · rw [if_pos hkey]
      exact ⟨s, hs⟩
    · rw [if_neg hkey]
      exact ⟨s, hs⟩
  | none =>
    rw [hf] at he2
    rcases List.mem_append.mp he2 with h4 | h4
    · exact hm e2 h4
    · rcases List.mem_singleton.mp h4 with rfl
      exact ⟨abs.2.2, habs⟩

theorem dedupeMax_keys (ps : List (Nat × Nat × ℚ)) :
    ∀ e ∈ dedupeMax ps, ∃ s, (e.1.1, e.1.2, s) ∈ ps := by
  unfold dedupeMax
  have hgen : ∀ (l : List (Nat × Nat × ℚ)) (m : List ((Nat × Nat) × ℚ)),
      (∀ abs ∈ l, abs ∈ ps) → (∀ e ∈ m, ∃ s, (e.1.1, e.1.2, s) ∈ ps) →
      ∀ e ∈ l.foldl dedupeStep m, ∃ s, (e.1.1, e.1.2, s) ∈ ps := by
    intro l
    induction l with
    | nil =>
      intro m _ hm e he
      exact hm e he
    | cons abs rest ih =>
      intro m hl hm e he
      rw [List.foldl_cons] at he
      exact ih _ (fun a ha => hl a (List.mem_cons_of_mem _ ha))
        (dedupeStep_keys ps m abs (hl abs (List.mem_cons_self _ _)) hm) e he
  intro e he
  exact hgen ps [] (fun _ h => h) (by simp) e he

theorem embed_pairs_sound (items : List SentItem) (I : List (List Int))
    (D : List (List ℚ)) (moderate : ℚ)
    (hI : ∀ row ∈ I, ∀ j ∈ row, j < 0 ∨ j.toNat < items.length) :
    ∀ abs ∈ embed_pairs items I D moderate,
      abs.1 < abs.2.1 ∧ abs.1 < items.length ∧ abs.2.1 < items.length ∧
      (items.getD abs.1 default).docId ≠ (items.getD abs.2.1 default).docId := by
  intro abs habs
  unfold embed_pairs at habs
  obtain ⟨e, he, rfl⟩ := List.mem_map.mp habs
  obtain ⟨s, hs⟩ := dedupeMax_keys _ e he
  exact embedRaw_sound items I D moderate hI (e.1.1, e.1.2, s) hs

/-! ## C3 and C5 -/

/-- Claim C3: every pair emitted on any of the three channels joins two
sentence items from different documents and is canonically ordered by
global id (`gid(a) < gid(b)`); the pairs are index pairs into
`all_items`, whose `gid` field is the index itself. -/
theorem claim3_pairs_cross_document_ordered (hash64 : List Char → Nat)
    (minWords ngram moderate : Nat) (docs : List (List (List Char)))
    (I : List (List Int)) (D : List (List ℚ)) (emod : ℚ)
    (items : List SentItem)
    (hitems : items = extractAll hash64 minWords ngram docs)
    (hI : ∀ row ∈ I, ∀ j ∈ row, j < 0 ∨ j.toNat < items.length) :
    (∀ ab ∈ exact_pairs items,
      (items.getD ab.1 default).docId ≠ (items.getD ab.2 default).docId ∧
      (items.getD ab.1 default).gid < (items.getD ab.2 default).gid) ∧
    (∀ abh ∈ sim_pairs items moderate,
      (items.getD abh.1 default).docId ≠ (items.getD abh.2.1 default).docId ∧
      (items.getD abh.1 default).gid < (items.getD abh.2.1 default).gid) ∧
    (∀ abs ∈ embed_pairs items I D emod,
      (items.getD abs.1 default).docId ≠ (items.getD abs.2.1 default).docId ∧
      (items.getD abs.1 default).gid < (items.getD abs.2.1 default).gid) := by
  have hgid : ∀ a b : Nat, a < b → a < items.length → b < items.length →
      (items.getD a default).gid < (items.getD b default).gid := by
    intro a b hab ha hb
    subst hitems
    rw [extractAll_gid hash64 minWords ngram docs a ha,
      extractAll_gid hash64 minWords ngram docs b hb]
    exact hab
  refine ⟨?_, ?_, ?_⟩
  · intro ab hab
    obtain ⟨h1, h2, h3, h4⟩ := exact_pairs_sound items ab hab
    exact ⟨h4, hgid _ _ h1 h2 h3⟩
  · intro abh habh
    have h := sim_pairs_sound items moderate abh habh
    unfold SimPairOk at h
    obtain ⟨h1, h2, h3, h4, _, _⟩ := h
    exact ⟨h4, hgid _ _ h1 h2 h3⟩
  · intro abs habs
    obtain ⟨h1, h2, h3, h4⟩ := embed_pairs_sound items I D emod hI abs habs
    exact ⟨h4, hgid _ _ h1 h2 h3⟩

/-- Witness for C3 at a two-document corpus sharing one sentence. -/
theorem claim3_witness :
    ((extractAll (fun _ => 0) 1 3
        [[['a','a',' ','b','b',' ','c','c']], [['a','a',' ','b','b',' ','c','c']]]).getD
        0 default).docId ≠
      ((extractAll (fun _ => 0) 1 3
        [[['a','a',' ','b','b',' ','c','c']], [['a','a',' ','b','b',' ','c','c']]]).getD
        1 default).docId ∧
    ((extractAll (fun _ => 0) 1 3
        [[['a','a',' ','b','b',' ','c','c']], [['a','a',' ','b','b',' ','c','c']]]).getD
        0 default).gid <
      ((extractAll (fun _ => 0) 1 3
        [[['a','a',' ','b','b',' ','c','c']], [['a','a',' ','b','b',' ','c','c']]]).getD
        1 default).gid :=
  (claim3_pairs_cross_document_ordered (fun _ => 0) 1 3 8
    [[['a','a',' ','b','b',' ','c','c']], [['a','a',' ','b','b',' ','c','c']]]
    [] [] (22 / 25)
    (extractAll (fun _ => 0) 1 3
      [[['a','a',' ','b','b',' ','c','c']], [['a','a',' ','b','b',' ','c','c']]])
    rfl (by simp)).1 (0, 1) (by decide)

/-- Claim C5: two sentence items from different documents with byte-equal
`norm` have equal signatures, Hamming distance 0, identical values in
all 8 LSH bands (hence always share a bucket and are generated as a
candidate), and their pair is recorded in the SimHash channel with
Hamming 0 and appears in the strict stratum rows. -/
theorem claim5_equal_norm_always_candidate (hash64 : List Char → Nat)
    (minWords ngram moderate strict : Nat) (docs : List (List (List Char)))
    (items : List SentItem)
    (hitems : items = extractAll hash64 minWords ngram docs)
    (ia ib : Nat) (hia : ia < items.length) (hib : ib < items.length)
    (hlt : ia < ib)
    (hdoc : (items.getD ia default).docId ≠ (items.getD ib default).docId)
    (hnorm : (items.getD ia default).norm = (items.getD ib default).norm) :
    (items.getD ia default).sig = (items.getD ib default).sig ∧
    hamming (items.getD ia default).sig (items.getD ib default).sig = 0 ∧
    bands_64 (items.getD ia default).sig 8 8 =
      bands_64 (items.getD ib default).sig 8 8 ∧
    (ia, ib, 0) ∈ sim_pairs items moderate ∧
    (ia, ib, 0) ∈ simhash_rows_strict items strict moderate := by
  have hsig : (items.getD ia default).sig = (items.getD ib default).sig := by
    have hwa := extractAllAux_wf hash64 minWords ngram docs 0 0
      (items.getD ia default)
      (by
        subst hitems
        rw [List.getD_eq_getElem _ default hia]
        exact List.getElem_mem hia)
    have hwb := extractAllAux_wf hash64 minWords ngram docs 0 0
      (items.getD ib default)
      (by
        subst hitems
        rw [List.getD_eq_getElem _ default hib]
        exact List.getElem_mem hib)
    rw [hwa, hwb, hnorm]
  have hne : ia ≠ ib := by omega
  have hpair := sim_pairs_complete items moderate ia ib hia hib hne hdoc hsig
  have hcp : canonPair ia ib = (ia, ib) := by
    unfold canonPair
    rw [if_pos hlt]
  rw [hcp] at hpair
  have hham : hamming (items.getD ia default).sig (items.getD ib default).sig = 0 := by
    rw [hsig]
    unfold hamming
    rw [Nat.xor_self]
    exact bitCount_zero
  refine ⟨hsig, hham, by rw [hsig], hpair, ?_⟩
  unfold simhash_rows_strict simhash_rows_moderate
  refine List.mem_filter.mpr ⟨?_, by simp⟩
  exact (mem_insSort (simRowLe items) (sim_pairs items moderate) _).mpr hpair

/-- Witness for C5 at a two-document corpus sharing one sentence. -/
theorem claim5_witness :
    (0, 1, 0) ∈ sim_pairs (extractAll (fun _ => 0) 1 3
      [[['a','a',' ','b','b',' ','c','c']], [['a','a',' ','b','b',' ','c','c']]]) 8 ∧
    (0, 1, 0) ∈ simhash_rows_strict (extractAll (fun _ => 0) 1 3
      [[['a','a',' ','b','b',' ','c','c']], [['a','a',' ','b','b',' ','c','c']]]) 6 8 := by
  have h := claim5_equal_norm_always_candidate (fun _ => 0) 1 3 8 6
    [[['a','a',' ','b','b',' ','c','c']], [['a','a',' ','b','b',' ','c','c']]]
    (extractAll (fun _ => 0) 1 3
      [[['a','a',' ','b','b',' ','c','c']], [['a','a',' ','b','b',' ','c','c']]])
    rfl 0 1 (by decide) (by decide) (by decide) (by decide) (by decide)
  exact ⟨h.2.2.2.1, h.2.2.2.2⟩

end CorpusDedup
